import Mathlib

/-!
# nessDB buffered tree (`engine/tree.c`): shallow embedding and verified properties

The write path of the buffered tree is embedded as pure functions with explicit
state passing.

* C pointers to nodes become node values; a function that mutates a node through
  a pointer returns the new value, and a pinned node is written back into the
  cache image under its NID (`cache_write`). At an unpin the cache may evict the
  node (`cache_unpin`); a later pin of an evicted node fails.
* C arrays (`pivots`, `parts`) are total maps from an index to a slot, next to
  the separate `n_children` counter, exactly as the C struct keeps them; a slot
  beyond the counter is stale memory.
* `nassert`, `__PANIC`, `abort` and a NULL dereference end the run with a `fault`;
  loops that the C code may spin in for ever take fuel and report `fault.nofuel`.
* Functions that `tree.c` calls but that live in other files of the engine are
  either fields of `collab` (taken as parameters) or are modelled from the
  specification; each such definition says so.
-/

namespace NessDB

/-! ## Identifiers and plain records -/

/-! The C types `NID` and `MSN` (unsigned 64-bit) and `TXNID` are natural numbers;
the two header counters are reduced modulo `UINT64_MOD` where they are
incremented. -/

/-- Modulus of the unsigned 64-bit counters of the header. -/
def UINT64_MOD : Nat := 2 ^ 64

/-- TXNID_NONE of `tree_put`. -/
def TXNID_NONE : Nat := 0

/-- The message types `tree_put` distinguishes; every other type is `MSG_OTHER`. -/
inductive msgtype_t where
  | MSG_INSERT
  | MSG_DELETE
  | MSG_UPDATE
  | MSG_OTHER (code : Nat)
  deriving DecidableEq, Repr

/-- struct txnid_pair. -/
structure txnid_pair where
  child_xid : Nat
  parent_xid : Nat
  deriving DecidableEq, Repr

/-- The transaction handle as far as `tree_put` reads it. -/
structure TXN where
  txnid : Nat
  root_parent_txnid : Nat
  deriving DecidableEq, Repr

/-- enum lock_type. -/
inductive lock_type where
  | L_READ
  | L_WRITE
  deriving DecidableEq, Repr

/-- enum reactivity. -/
inductive reactivity where
  | STABLE
  | FISSIBLE
  | FLUSHBLE
  deriving DecidableEq, Repr

/-- How a run ends when it does not return: a failed `nassert`, a `__PANIC` or
`abort`, a NULL dereference, or the fuel of a loop running out. -/
inductive fault where
  | assertion
  | panic
  | nullptr
  | nofuel
  deriving DecidableEq, Repr

/-- Result of a run that may end in a fault. -/
abbrev Res (α : Type) := Except fault α

/-! ## Messages, commands and the message buffer

`msg` is the key and value blob type; the development is generic in it. Its
order is the key order of the engine, its default value the zeroed `struct msg`.
-/

/-- One entry of a message buffer: `(msn, type, key, value, xidpair)`. -/
structure msgentry (msg : Type) where
  msn : Nat
  type : msgtype_t
  key : msg
  val : msg
  xidpair : txnid_pair
  deriving DecidableEq, Repr

/-- struct bt_cmd. -/
structure bt_cmd (msg : Type) where
  msn : Nat
  type : msgtype_t
  key : msg
  val : msg
  xidpair : txnid_pair
  deriving DecidableEq, Repr

/-- Modelled from the spec: struct msgbuf (msgbuf.c is not part of the sources).
The spec describes an ordered multimap by key, keyed also by the MSN, iterated
in order by key with ties by MSN. The model is the list of entries in iteration
order. -/
structure msgbuf (msg : Type) where
  entries : List (msgentry msg)
  deriving DecidableEq, Repr

instance (msg : Type) [Inhabited msg] : Inhabited (msgentry msg) :=
  ⟨⟨0, msgtype_t.MSG_OTHER 0, default, default, ⟨0, 0⟩⟩⟩

section Buffer

variable {msg : Type} [LinearOrder msg]

/-- Modelled from the spec: msgbuf_new, a fresh empty buffer. -/
def msgbuf_new : msgbuf msg := ⟨[]⟩

/-- Modelled from the spec: the `count` field of a buffer, its cardinality. -/
def msgbuf.count (mb : msgbuf msg) : Nat := mb.entries.length

/-- Modelled from the spec: the iteration order of a buffer, by key with ties by
MSN (strict part). -/
def msgentry_lt (a b : msgentry msg) : Prop :=
  a.key < b.key ∨ (a.key = b.key ∧ a.msn < b.msn)

instance (a b : msgentry msg) : Decidable (msgentry_lt a b) := by
  unfold msgentry_lt
  exact inferInstance

/-- Modelled from the spec: the iteration order of a buffer, by key with ties by
MSN. -/
def msgentry_le (a b : msgentry msg) : Prop :=
  a.key < b.key ∨ (a.key = b.key ∧ a.msn ≤ b.msn)

instance (a b : msgentry msg) : Decidable (msgentry_le a b) := by
  unfold msgentry_le
  exact inferInstance

/-- Modelled from the spec: insertion into the ordered container. The new entry
goes in front of the first entry that is strictly greater, behind every entry
that is smaller or equal. -/
def msgbuf_insert (e : msgentry msg) : List (msgentry msg) → List (msgentry msg)
  | [] => [e]
  | b :: l => if msgentry_lt e b then e :: b :: l else b :: msgbuf_insert e l

/-- Modelled from the spec: msgbuf_put appends an entry to the ordered container. -/
def msgbuf_put (mb : msgbuf msg) (msn : Nat) (type : msgtype_t) (key val : msg)
    (xidpair : txnid_pair) : msgbuf msg :=
  ⟨msgbuf_insert ⟨msn, type, key, val, xidpair⟩ mb.entries⟩

/-- Well-formed buffer: the entries are in iteration order. Every buffer built
from `msgbuf_new` by `msgbuf_put` is well formed. -/
def msgbuf.wf (mb : msgbuf msg) : Prop := mb.entries.Pairwise msgentry_le

/-- Modelled from the spec: struct msgbuf_iter (msgbuf.c is not part of the
sources). The buffer is a multimap by key: the iterator proper (`seektofirst`,
`valid`, `next`) walks the distinct keys in order, the internal iterator
(`msgbuf_internal_iter_next`) walks the entries of the current key in MSN order.
This is how `tree.c` uses the two: `_leaf_split` chooses the target buffer once
per step of the iterator proper and counts one entry per step of the internal
iterator, `_flush_some_child` reads the fields right after `seektofirst` and
`next`. `rest` holds the entries from the current key on, `same` the entries of
the current key that the internal iterator has not visited yet, `cur` the
fields `msn`, `type`, `key`, `val`, `xidpair` of the entry loaded last.
Positioning on a key loads the first entry of that key. On a buffer whose keys
are pairwise distinct both iterators visit every entry once, in order. -/
structure msgbuf_iter (msg : Type) where
  mb : msgbuf msg
  rest : List (msgentry msg)
  same : List (msgentry msg)
  cur : msgentry msg

/-- Modelled from the spec: the test that groups the entries of one key. -/
def same_key (k : msg) (e : msgentry msg) : Bool := decide (e.key = k)

/-- Modelled from the spec: msgbuf_iter_init binds a zeroed iterator to a buffer. -/
def msgbuf_iter_init [Inhabited msg] (mb : msgbuf msg) : msgbuf_iter msg :=
  ⟨mb, [], [], default⟩

/-- Modelled from the spec: position the iterator on the first key of a list of
entries (shared by `seektofirst` and `next`). -/
def msgbuf_iter_seek (l : List (msgentry msg)) (it : msgbuf_iter msg) : msgbuf_iter msg :=
  match l with
  | [] => { it with rest := [], same := [] }
  | e :: r => { it with rest := e :: r, same := e :: r.takeWhile (same_key e.key), cur := e }

/-- Modelled from the spec: msgbuf_iter_seektofirst. -/
def msgbuf_iter_seektofirst (it : msgbuf_iter msg) : msgbuf_iter msg :=
  msgbuf_iter_seek it.mb.entries it

/-- Modelled from the spec: msgbuf_iter_valid, true while the iterator stands on a key. -/
def msgbuf_iter_valid (it : msgbuf_iter msg) : Bool :=
  match it.rest with
  | [] => false
  | _ :: _ => true

/-- Modelled from the spec: msgbuf_iter_next moves to the next key. -/
def msgbuf_iter_next (it : msgbuf_iter msg) : msgbuf_iter msg :=
  match it.rest with
  | [] => it
  | e :: r => msgbuf_iter_seek (r.dropWhile (same_key e.key)) it

/-- Modelled from the spec: msgbuf_internal_iter_next loads the next entry of the
current key and returns 1, or returns 0 when the key has no further entry. -/
def msgbuf_internal_iter_next (it : msgbuf_iter msg) : Bool × msgbuf_iter msg :=
  match it.same with
  | [] => (false, it)
  | e :: r => (true, { it with same := r, cur := e })

end Buffer

/-! ## Nodes, header, options and the tree -/

/-- struct partition: a child NID and the buffer of messages pending for that
child. The buffer pointer may be NULL (`none`). The partition lock is not part
of the sequential model. -/
structure partition (msg : Type) where
  child_nid : Nat
  buffer : Option (msgbuf msg)

/-- struct node. `l_buffer` is `u.l.buffer`; `n_children`, `pivots` and `parts`
are `u.n.n_children`, `u.n.pivots` and `u.n.parts`. `msn` is the highest MSN the
node has seen (`msn_high` in the spec). -/
structure node (msg : Type) where
  nid : Nat
  height : Nat
  isroot : Nat
  dirty : Nat
  msn : Nat
  l_buffer : Option (msgbuf msg)
  n_children : Nat
  pivots : Nat → msg
  parts : Nat → partition msg

/-- struct hdr. -/
structure hdr where
  root_nid : Nat
  height : Nat
  last_nid : Nat
  last_msn : Nat
  method : Nat
  deriving DecidableEq, Repr

/-- struct options, the thresholds `tree.c` reads. -/
structure options where
  leaf_node_page_size : Nat
  leaf_node_page_count : Nat
  inner_node_page_size : Nat
  inner_node_page_count : Nat
  inner_node_fanout : Nat
  compress_method : Nat
  use_directio : Nat
  deriving DecidableEq, Repr

/-- struct status, the counters `tree.c` increments. -/
structure status where
  tree_add_pivots_nums : Nat
  tree_leaf_split_nums : Nat
  tree_nonleaf_split_nums : Nat
  tree_root_new_nums : Nat
  tree_flush_child_nums : Nat
  tree_leaf_put_nums : Nat
  tree_nonleaf_put_nums : Nat
  deriving DecidableEq, Repr

/-- Modelled from the spec: struct cache_file (cache.c is not part of the
sources). `nodes` is the node image indexed by NID; a NID without an image is
one the cache cannot fetch, so pinning it fails. `evict` holds the decisions of
the cache at the coming unpins, in order: `true` says that the cache evicts the
node at that unpin and fails to fetch it afterwards (the transient I/O failure
of a later `get_and_pin`); past the end of the list nothing is evicted. -/
structure cache_file (msg : Type) where
  nodes : Nat → Option (node msg)
  evict : List Bool

/-- struct tree: header, options, status counters and the bound cache file. -/
structure tree (msg : Type) where
  hdr : hdr
  opts : options
  status : status
  cf : cache_file msg

/-- What `tree.c` uses from other files of the engine and what is taken as a
parameter: the constants `NID_START`, `NESS_OK`, `NESS_ERR`, and the functions
`msgbuf_memsize`, `node_size`, `node_count`, `node_partition_idx`,
`node_find_heaviest_idx` and `leaf_apply_msg`. -/
structure collab (msg : Type) where
  NID_START : Nat
  NESS_OK : Int
  NESS_ERR : Int
  msgbuf_memsize : Option (msgbuf msg) → Nat
  node_size : node msg → Nat
  node_count : node msg → Nat
  node_partition_idx : node msg → msg → Nat
  node_find_heaviest_idx : node msg → Nat
  leaf_apply_msg : node msg → bt_cmd msg → node msg

section Tree

variable {msg : Type} [LinearOrder msg] [Inhabited msg]

/-- Modelled from the spec: node_set_dirty marks the node dirty. -/
def node_set_dirty (nd : node msg) : node msg := { nd with dirty := 1 }

/-- hdr_next_nid (tree.c 570-576): increment `last_nid` (unsigned 64-bit), assert
that it is at least `NID_START`, return it. -/
def hdr_next_nid (X : collab msg) (t : tree msg) : Res (tree msg × Nat) :=
  let last := (t.hdr.last_nid + 1) % UINT64_MOD
  let t1 : tree msg := { t with hdr := { t.hdr with last_nid := last } }
  if X.NID_START ≤ last then .ok (t1, last) else .error fault.assertion

/-- hdr_next_msn (tree.c 578-583): increment `last_msn` (unsigned 64-bit) and
return it. -/
def hdr_next_msn (t : tree msg) : tree msg × Nat :=
  let last := (t.hdr.last_msn + 1) % UINT64_MOD
  ({ t with hdr := { t.hdr with last_msn := last } }, last)

/-- Modelled from the spec: cache_create_node_and_pin allocates a NID and
constructs an in-memory node with the given height and number of children. The
node is zeroed otherwise: no buffer is allocated, the callers install them. -/
def cache_create_node_and_pin (X : collab msg) (t : tree msg) (height children : Nat) :
    Res (tree msg × node msg) :=
  match hdr_next_nid X t with
  | .error f => .error f
  | .ok (t1, nid) =>
    .ok (t1, { nid := nid, height := height, isroot := 0, dirty := 0, msn := 0,
               l_buffer := none, n_children := children,
               pivots := fun _ => default,
               parts := fun _ => { child_nid := 0, buffer := none } })

/-- Modelled from the spec: the node image of the cache after a pinned node was
mutated in place. The value is stored under the NID the node carries. -/
def cache_write (t : tree msg) (nd : node msg) : tree msg :=
  { t with cf := { nodes := Function.update t.cf.nodes nd.nid (some nd), evict := t.cf.evict } }

/-- Modelled from the spec: cache_get_and_pin returns the status and, on
success, the node bound to the NID. The latch mode is not part of the
sequential model. -/
def cache_get_and_pin (X : collab msg) (t : tree msg) (nid : Nat) (_locktype : lock_type) :
    Int × Option (node msg) :=
  match t.cf.nodes nid with
  | some nd => (X.NESS_OK, some nd)
  | none => (X.NESS_ERR, none)

/-- Modelled from the spec: cache_unpin releases the latch and the pin and may
schedule eviction. The node image keeps what was written to the node while it
was pinned, unless the next decision of `evict` is `true`: then the node is
evicted and the cache cannot fetch it again. The decision is used up. -/
def cache_unpin (t : tree msg) (nd : node msg) : tree msg :=
  { t with cf :=
      { nodes := Function.update t.cf.nodes nd.nid
          (if t.cf.evict.head? = some true then none else some nd),
        evict := t.cf.evict.tail } }

/-! ## Reactivity (tree.c 254-282) -/

/-- The `haszero` loop of `_get_reactivity`: `i` runs from its start value while
`k` slots remain; the result is 1 as soon as a partition buffer has memsize 0. -/
def _get_reactivity_haszero (X : collab msg) (nd : node msg) : Nat → Nat → Nat
  | 0, _ => 0
  | k + 1, i =>
    if X.msgbuf_memsize (nd.parts i).buffer = 0 then 1
    else _get_reactivity_haszero X nd k (i + 1)

/-- _get_reactivity (tree.c 254-282). -/
def _get_reactivity (X : collab msg) (t : tree msg) (nd : node msg) : reactivity :=
  if nd.height = 0 then
    if (X.node_size nd ≥ t.opts.leaf_node_page_size ∧ X.node_count nd > 1) ∨
        X.node_count nd ≥ t.opts.leaf_node_page_count then
      reactivity.FISSIBLE
    else reactivity.STABLE
  else
    let children := nd.n_children
    if children ≥ t.opts.inner_node_fanout then reactivity.FISSIBLE
    else
      let haszero := _get_reactivity_haszero X nd children 0
      if (X.node_size nd > t.opts.inner_node_page_size ∧ haszero = 0) ∨
          X.node_count nd ≥ t.opts.inner_node_page_count then
        reactivity.FLUSHBLE
      else reactivity.STABLE

/-! ## Adding a pivot to the parent (tree.c 39-75) -/

/-- The two slide loops of `_add_pivot_to_parent`:
`for (i = start; i > pidx; i--) a[i] = a[i - 1];`. -/
def slide {α : Type} (pidx : Nat) : Nat → (Nat → α) → (Nat → α)
  | 0, a => a
  | i + 1, a => if pidx < i + 1 then slide pidx i (Function.update a (i + 1) (a i)) else a

/-- _add_pivot_to_parent (tree.c 39-75). The two `xrealloc` calls resize the
arrays and keep their content; the split key is copied by `msgcpy`. -/
def _add_pivot_to_parent (t : tree msg) (parent : node msg) (child_num : Nat)
    (a b : node msg) (spk : msg) : tree msg × node msg :=
  let pidx := child_num
  let pivots1 := slide pidx (parent.n_children - 1) parent.pivots
  let parts1 := slide pidx parent.n_children parent.parts
  let pivots2 := Function.update pivots1 pidx spk
  let parts2 := Function.update parts1 pidx
    { (parts1 pidx) with child_nid := a.nid, buffer := some msgbuf_new }
  let parts3 := Function.update parts2 (pidx + 1)
    { (parts2 (pidx + 1)) with child_nid := b.nid }
  let parent1 : node msg :=
    { parent with pivots := pivots2, parts := parts3, n_children := parent.n_children + 1 }
  ({ t with status := { t.status with
      tree_add_pivots_nums := t.status.tree_add_pivots_nums + 1 } },
   node_set_dirty parent1)

/-! ## Leaf split (tree.c 83-144) -/

/-- The inner loop of `_leaf_split` (tree.c 115-124): while the internal iterator
yields an entry, put it into `mb`, take its key as split key when `i == mid`,
count it. -/
def _leaf_split_inner (mid : Nat) :
    Nat → msgbuf_iter msg → Nat → msgbuf msg → Option msg →
    Res (msgbuf_iter msg × Nat × msgbuf msg × Option msg)
  | 0, _, _, _, _ => .error fault.nofuel
  | f + 1, it, i, mb, spk =>
    match msgbuf_internal_iter_next it with
    | (false, it1) => .ok (it1, i, mb, spk)
    | (true, it1) =>
      let mb1 := msgbuf_put mb it1.cur.msn it1.cur.type it1.cur.key it1.cur.val it1.cur.xidpair
      let spk1 := if i = mid then some it1.cur.key else spk
      _leaf_split_inner mid f it1 (i + 1) mb1 spk1

/-- The outer loop of `_leaf_split` (tree.c 108-127): while the iterator is valid,
choose `buffa` when `i <= mid` and `buffb` otherwise, run the inner loop on the
chosen buffer, move the iterator on. `n` is the fuel of each inner loop. -/
def _leaf_split_outer (mid n : Nat) :
    Nat → msgbuf_iter msg → Nat → msgbuf msg → msgbuf msg → Option msg →
    Res (msgbuf msg × msgbuf msg × Option msg)
  | 0, _, _, _, _, _ => .error fault.nofuel
  | f + 1, it, i, buffa, buffb, spk =>
    if msgbuf_iter_valid it then
      if i ≤ mid then
        match _leaf_split_inner mid n it i buffa spk with
        | .error e => .error e
        | .ok (it1, i1, mb1, spk1) =>
          _leaf_split_outer mid n f (msgbuf_iter_next it1) i1 mb1 buffb spk1
      else
        match _leaf_split_inner mid n it i buffb spk with
        | .error e => .error e
        | .ok (it1, i1, mb1, spk1) =>
          _leaf_split_outer mid n f (msgbuf_iter_next it1) i1 buffa mb1 spk1
    else .ok (buffa, buffb, spk)

/-- _leaf_split (tree.c 83-144). Returns the tree, leaf `a` (the leaf itself),
the new leaf `b` and the split key (NULL when no entry was counted `mid`). Both
loops get `count + 1` units of fuel, which they never use up. -/
def _leaf_split (X : collab msg) (t : tree msg) (leaf : node msg) :
    Res (tree msg × node msg × node msg × Option msg) :=
  match leaf.l_buffer with
  | none => .error fault.nullptr
  | some old_buff =>
    let buffa : msgbuf msg := msgbuf_new
    let buffb : msgbuf msg := msgbuf_new
    let mid := old_buff.count / 2
    let iter := msgbuf_iter_seektofirst (msgbuf_iter_init old_buff)
    match _leaf_split_outer mid (old_buff.count + 1) (old_buff.count + 1)
        iter 0 buffa buffb none with
    | .error e => .error e
    | .ok (buffa1, buffb1, spk) =>
      let leafa : node msg := { leaf with l_buffer := some buffa1 }
      match cache_create_node_and_pin X t 0 0 with
      | .error e => .error e
      | .ok (t1, leafb0) =>
        let leafb : node msg := { leafb0 with l_buffer := some buffb1 }
        .ok ({ t1 with status := { t1.status with
                tree_leaf_split_nums := t1.status.tree_leaf_split_nums + 1 } },
             node_set_dirty leafa, node_set_dirty leafb, spk)

/-! ## Interior split (tree.c 167-219) -/

/-- The two copy loops of `_nonleaf_split`:
`for (i = 0; i < n; i++) dst[i] = src[off + i];`. -/
def copy_from {α : Type} (src : Nat → α) (off : Nat) : Nat → (Nat → α) → (Nat → α)
  | 0, dst => dst
  | k + 1, dst => Function.update (copy_from src off k dst) k (src (off + k))

/-- _nonleaf_split (tree.c 167-219). Node `a` is the node itself. -/
def _nonleaf_split (X : collab msg) (t : tree msg) (nd : node msg) :
    Res (tree msg × node msg × node msg × Option msg) :=
  let pivots_old := nd.n_children - 1
  if pivots_old > 2 then
    let pivots_in_a := pivots_old / 2
    let pivots_in_b := pivots_old - pivots_in_a
    let nodea : node msg := { nd with n_children := pivots_in_a + 1 }
    match cache_create_node_and_pin X t 1 (pivots_in_b + 1) with
    | .error e => .error e
    | .ok (t1, nodeb0) =>
      let nodeb1 : node msg :=
        { nodeb0 with pivots := copy_from nodea.pivots pivots_in_a pivots_in_b nodeb0.pivots }
      let nodeb2 : node msg :=
        { nodeb1 with parts := copy_from nodea.parts pivots_in_a (pivots_in_b + 1) nodeb1.parts }
      let nodea1 : node msg :=
        { nodea with parts := (Function.update nodea.parts pivots_in_a
            { (nodea.parts pivots_in_a) with buffer := some msgbuf_new }) }
      let spk := nodea1.pivots (pivots_in_a - 1)
      .ok ({ t1 with status := { t1.status with
              tree_nonleaf_split_nums := t1.status.tree_nonleaf_split_nums + 1 } },
           node_set_dirty nodea1, node_set_dirty nodeb2, some spk)
  else .error fault.assertion

/-! ## Splitting a child under its parent (tree.c 229-252) -/

/-- _node_split_child (tree.c 229-252). Returns the tree, the parent and the
child (node `a` of the split). A NULL split key faults where the key is read. -/
def _node_split_child (X : collab msg) (t : tree msg) (parent child : node msg) :
    Res (tree msg × node msg × node msg) :=
  match (if child.height = 0 then _leaf_split X t child else _nonleaf_split X t child) with
  | .error e => .error e
  | .ok (_, _, _, none) => .error fault.nullptr
  | .ok (t1, a, b, some split_key) =>
    let child_num := X.node_partition_idx parent split_key
    let (t2, parent1) := _add_pivot_to_parent t1 parent child_num a b split_key
    let t3 := cache_unpin t2 b
    .ok ({ t3 with status := { t3.status with
            tree_nonleaf_split_nums := t3.status.tree_nonleaf_split_nums + 1 } },
         parent1, a)

/-! ## Applying a command to a node (tree.c 291-342) -/

/-- leaf_put_cmd (tree.c 291-294). -/
def leaf_put_cmd (X : collab msg) (leaf : node msg) (cmd : bt_cmd msg) : node msg :=
  X.leaf_apply_msg leaf cmd

/-- nonleaf_put_cmd (tree.c 303-325). -/
def nonleaf_put_cmd (X : collab msg) (nd : node msg) (cmd : bt_cmd msg) : Res (node msg) :=
  let pidx := X.node_partition_idx nd cmd.key
  let part := nd.parts pidx
  match part.buffer with
  | none => .error fault.panic
  | some buffer =>
    let buffer1 := msgbuf_put buffer cmd.msn cmd.type cmd.key cmd.val cmd.xidpair
    let nd1 : node msg :=
      { nd with parts := (Function.update nd.parts pidx { part with buffer := some buffer1 }) }
    let nd2 : node msg := { nd1 with msn := if cmd.msn > nd1.msn then cmd.msn else nd1.msn }
    .ok (node_set_dirty nd2)

/-- _node_put_cmd (tree.c 333-342). -/
def _node_put_cmd (X : collab msg) (t : tree msg) (nd : node msg) (cmd : bt_cmd msg) :
    Res (tree msg × node msg) :=
  if nd.height = 0 then
    .ok ({ t with status := { t.status with
            tree_leaf_put_nums := t.status.tree_leaf_put_nums + 1 } },
         leaf_put_cmd X nd cmd)
  else
    match nonleaf_put_cmd X nd cmd with
    | .error e => .error e
    | .ok nd1 =>
      .ok ({ t with status := { t.status with
              tree_nonleaf_put_nums := t.status.tree_nonleaf_put_nums + 1 } }, nd1)

/-! ## Flushing a child (tree.c 351-428) -/

/-- The drain loop of `_flush_some_child` (tree.c 380-392). `msn` is the snapshot
of `child->msn` taken before the loop. On `msn >= iter.msn` the C code executes
`continue` and so re-enters the loop with the iterator where it was. -/
def _flush_drain (X : collab msg) (msn : Nat) :
    Nat → tree msg → node msg → msgbuf_iter msg → Res (tree msg × node msg)
  | 0, _, _, _ => .error fault.nofuel
  | f + 1, t, child, iter =>
    if msgbuf_iter_valid iter then
      if msn ≥ iter.cur.msn then _flush_drain X msn f t child iter
      else
        let cmd : bt_cmd msg :=
          { msn := iter.cur.msn, type := iter.cur.type, key := iter.cur.key,
            val := iter.cur.val, xidpair := iter.cur.xidpair }
        match _node_put_cmd X t child cmd with
        | .error e => .error e
        | .ok (t1, child1) => _flush_drain X msn f t1 child1 (msgbuf_iter_next iter)
    else .ok (t, child)

/-- _flush_some_child (tree.c 351-428). `n` is the fuel of each drain loop, the
first numeric argument the fuel of the recursion. The pinned child is mutated in
place, so its image is written before the recursive call, whose return value
the C code drops. -/
def _flush_some_child (X : collab msg) (n : Nat) :
    Nat → tree msg → node msg → Res (tree msg × Int)
  | 0, _, _ => .error fault.nofuel
  | f + 1, t, parent =>
    let childnum := X.node_find_heaviest_idx parent
    if childnum < parent.n_children then
      let part := parent.parts childnum
      match cache_get_and_pin X t part.child_nid lock_type.L_WRITE with
      | (st, r) =>
        if st ≠ X.NESS_OK then .ok (t, X.NESS_ERR)
        else
          match r, part.buffer with
          | none, _ => .error fault.nullptr
          | some _, none => .error fault.nullptr
          | some child, some mb =>
            let msn := child.msn
            let iter := msgbuf_iter_seektofirst (msgbuf_iter_init mb)
            match _flush_drain X msn n t child iter with
            | .error e => .error e
            | .ok (t1, child1) =>
              let parent1 : node msg :=
                { parent with parts := (Function.update parent.parts childnum
                    { part with buffer := some msgbuf_new }) }
              let parent2 := node_set_dirty parent1
              let child2 := node_set_dirty child1
              match _get_reactivity X t1 child2 with
              | reactivity.STABLE =>
                .ok (cache_unpin (cache_unpin t1 child2) parent2, X.NESS_OK)
              | reactivity.FISSIBLE =>
                match _node_split_child X t1 parent2 child2 with
                | .error e => .error e
                | .ok (t2, parent3, child3) =>
                  .ok (cache_unpin (cache_unpin t2 child3) parent3, X.NESS_OK)
              | reactivity.FLUSHBLE =>
                if child2.height > 0 then
                  match _flush_some_child X n f (cache_write (cache_unpin t1 parent2) child2)
                      child2 with
                  | .error e => .error e
                  | .ok (t2, _) => .ok (t2, X.NESS_OK)
                else .error fault.assertion
    else .error fault.assertion

/-! ## Root swap and root split (tree.c 438-492) -/

/-- Modelled from the spec: cache_cpair_value_swap exchanges the cache-entry
payloads bound to the slots of two pinned nodes. -/
def cache_cpair_value_swap (t : tree msg) (a b : node msg) : tree msg :=
  { t with cf := { nodes := (Function.update
      (Function.update t.cf.nodes a.nid (t.cf.nodes b.nid)) b.nid (t.cf.nodes a.nid)),
                   evict := t.cf.evict } }

/-- _root_swap (tree.c 438-457). Returns the tree, the new root and the old root. -/
def _root_swap (t : tree msg) (new_root old_root : node msg) :
    tree msg × node msg × node msg :=
  let old_nid := old_root.nid
  let new_nid := new_root.nid
  let t1 := cache_cpair_value_swap t new_root old_root
  let old_root1 : node msg := { old_root with nid := new_nid }
  let new_root1 : node msg := { new_root with nid := old_nid }
  let old_root2 : node msg := { old_root1 with isroot := 0 }
  let new_root2 : node msg := { new_root1 with isroot := 1 }
  (t1, new_root2, old_root2)

/-- _root_split (tree.c 459-492). Node `a` of the split is the old root itself, so
`a->nid` read after the swap is the NID the old root carries then. Returns the
tree, the new root and the old root. The width of `hdr->height` is not in the
sources; the increment is modelled without wrap-around. -/
def _root_split (X : collab msg) (t : tree msg) (new_root old_root : node msg) :
    Res (tree msg × node msg × node msg) :=
  match (if old_root.height = 0 then _leaf_split X t old_root
         else _nonleaf_split X t old_root) with
  | .error e => .error e
  | .ok (_, _, _, none) => .error fault.nullptr
  | .ok (t1, a, b, some split_key) =>
    let (t2, new_root1, a1) := _root_swap t1 new_root a
    let pivots1 := Function.update new_root1.pivots 0 split_key
    let parts1 := Function.update new_root1.parts 0
      { (new_root1.parts 0) with child_nid := a1.nid, buffer := some msgbuf_new }
    let parts2 := Function.update parts1 1
      { (parts1 1) with child_nid := b.nid, buffer := some msgbuf_new }
    let new_root2 : node msg := { new_root1 with pivots := pivots1, parts := parts2 }
    let b1 := node_set_dirty b
    let t3 := cache_unpin t2 b1
    let old_root1 := node_set_dirty a1
    let new_root3 := node_set_dirty new_root2
    .ok ({ t3 with
            status := { t3.status with
              tree_root_new_nums := t3.status.tree_root_new_nums + 1 },
            hdr := { t3.hdr with height := t3.hdr.height + 1 } },
         new_root3, old_root1)

/-! ## The write path (tree.c 502-568, 662-700) -/

/-- The `FISSIBLE` case of `root_put_cmd` once the root is held with `L_WRITE`
(tree.c 525-541): create the new root, split, unpin both. Returns the tree and
the new root. -/
def root_put_cmd_split (X : collab msg) (t : tree msg) (root : node msg) :
    Res (tree msg × node msg) :=
  let new_root_height := 1
  let new_root_children := 2
  match cache_create_node_and_pin X t new_root_height new_root_children with
  | .error e => .error e
  | .ok (t1, new_root) =>
    match _root_split X t1 new_root root with
    | .error e => .error e
    | .ok (t2, new_root1, root1) =>
      .ok (cache_unpin (cache_unpin t2 root1) new_root1, new_root1)

/-- How the retry loop of `root_put_cmd` ends: with an early `return`, or at the
final apply step with the pinned root and the lock type it is held with. -/
inductive root_loop_out (msg : Type) where
  | ret (code : Int)
  | apply (root : node msg) (locktype : lock_type)

/-- The retry loop of `root_put_cmd` (tree.c 508-562), one unit of fuel per
`goto CHANGE_LOCK_TYPE`. `n` is the fuel handed to `_flush_some_child`. -/
def root_put_loop (X : collab msg) (n : Nat) :
    Nat → tree msg → lock_type → Res (tree msg × root_loop_out msg)
  | 0, _, _ => .error fault.nofuel
  | f + 1, t, locktype =>
    match cache_get_and_pin X t t.hdr.root_nid locktype with
    | (st, r) =>
      if st = 0 then .ok (t, root_loop_out.ret X.NESS_ERR)
      else
        match r with
        | none => .error fault.nullptr
        | some root =>
          match _get_reactivity X t root with
          | reactivity.STABLE => .ok (t, root_loop_out.apply root locktype)
          | reactivity.FISSIBLE =>
            if locktype = lock_type.L_READ then
              root_put_loop X n f (cache_unpin t root) lock_type.L_WRITE
            else
              match root_put_cmd_split X t root with
              | .error e => .error e
              | .ok (t1, _) => root_put_loop X n f t1 lock_type.L_READ
          | reactivity.FLUSHBLE =>
            if locktype = lock_type.L_READ then
              root_put_loop X n f (cache_unpin t root) lock_type.L_WRITE
            else
              match _flush_some_child X n n t root with
              | .error e => .error e
              | .ok (t1, _) =>
                root_put_loop X n f
                  { t1 with status := { t1.status with
                      tree_flush_child_nums := t1.status.tree_flush_child_nums + 1 } }
                  lock_type.L_READ

/-- root_put_cmd (tree.c 502-568). -/
def root_put_cmd (X : collab msg) (n fuel : Nat) (t : tree msg) (cmd : bt_cmd msg) :
    Res (tree msg × Int) :=
  match root_put_loop X n fuel t lock_type.L_READ with
  | .error e => .error e
  | .ok (t1, root_loop_out.ret code) => .ok (t1, code)
  | .ok (t1, root_loop_out.apply root _) =>
    match _node_put_cmd X t1 root cmd with
    | .error e => .error e
    | .ok (t2, root1) => .ok (cache_unpin t2 root1, X.NESS_OK)

/-- The command `tree_put` builds (tree.c 668-697): the transaction ids, then a
fresh MSN from `hdr_next_msn`. The rollback records go to the transaction
manager and leave the tree alone. -/
def tree_put_cmd (t : tree msg) (k v : msg) (type : msgtype_t) (txn : Option TXN) :
    tree msg × bt_cmd msg :=
  let child_xid := match txn with
    | some x => x.txnid
    | none => TXNID_NONE
  let parent_xid := match txn with
    | some x => x.root_parent_txnid
    | none => TXNID_NONE
  let (t1, msn) := hdr_next_msn t
  (t1, { msn := msn, type := type, key := k, val := v,
         xidpair := { child_xid := child_xid, parent_xid := parent_xid } })

/-- tree_put (tree.c 662-700). -/
def tree_put (X : collab msg) (n fuel : Nat) (t : tree msg) (k v : msg) (type : msgtype_t)
    (txn : Option TXN) : Res (tree msg × Int) :=
  let (t1, cmd) := tree_put_cmd t k v type txn
  root_put_cmd X n fuel t1 cmd

/-- The arguments of one `tree_put` call. -/
structure put_args (msg : Type) where
  k : msg
  v : msg
  type : msgtype_t
  txn : Option TXN

/-- A sequence of `tree_put` calls on one tree: the commands built, in call
order, and the tree after the last call, or the fault that ended the run (the
command of the faulting call is part of the list). -/
def tree_puts (X : collab msg) (n fuel : Nat) :
    tree msg → List (put_args msg) → List (bt_cmd msg) × Res (tree msg)
  | t, [] => ([], .ok t)
  | t, p :: ps =>
    let (t1, cmd) := tree_put_cmd t p.k p.v p.type p.txn
    match root_put_cmd X n fuel t1 cmd with
    | .error e => ([cmd], .error e)
    | .ok (t2, _) =>
      let (cs, r) := tree_puts X n fuel t2 ps
      (cmd :: cs, r)

/-- The header `tree_open` builds for a newly created file (tree.c 623-627):
zeroed by `xcalloc`, then `height`, `last_nid` and `method` are set. -/
def tree_open_hdr (X : collab msg) (opts : options) : hdr :=
  { root_nid := 0, height := 0, last_nid := X.NID_START, last_msn := 0,
    method := opts.compress_method }

/-! ## The decision table of the specification (section 4.1) -/

/-- A partition buffer that is present and holds no entry. -/
def buffer_empty (b : Option (msgbuf msg)) : Bool :=
  match b with
  | some mb => mb.entries.isEmpty
  | none => false

/-- The reactivity classifier in the words of the specification: `bytes` is
`node_size`, `count` is `node_count`, `c` the number of children, `haszero` says
that some partition buffer is empty. -/
def reactivity_table (X : collab msg) (t : tree msg) (nd : node msg) : reactivity :=
  let bytes := X.node_size nd
  let count := X.node_count nd
  if nd.height = 0 then
    if (bytes ≥ t.opts.leaf_node_page_size ∧ count > 1) ∨
        count ≥ t.opts.leaf_node_page_count then reactivity.FISSIBLE
    else reactivity.STABLE
  else
    let c := nd.n_children
    if c ≥ t.opts.inner_node_fanout then reactivity.FISSIBLE
    else if (bytes > t.opts.inner_node_page_size ∧
              ¬ (∃ i, i < c ∧ buffer_empty (nd.parts i).buffer = true)) ∨
            count ≥ t.opts.inner_node_page_count then reactivity.FLUSHBLE
    else reactivity.STABLE

/-- The command the drain loop of `_flush_some_child` forms from a buffer entry. -/
def cmd_of_entry (e : msgentry msg) : bt_cmd msg :=
  { msn := e.msn, type := e.type, key := e.key, val := e.val, xidpair := e.xidpair }

/-- `_node_put_cmd` applied to the entries of a list, one after the other. -/
def apply_entries (X : collab msg) : tree msg → node msg → List (msgentry msg) →
    Res (tree msg × node msg)
  | t, nd, [] => .ok (t, nd)
  | t, nd, e :: r =>
    match _node_put_cmd X t nd (cmd_of_entry e) with
    | .error f => .error f
    | .ok (t1, nd1) => apply_entries X t1 nd1 r

end Tree

/-! ## Auxiliary functions used to state what the loops compute -/

section Aux

variable {msg : Type} [LinearOrder msg]

/-- The entries of the first key of a list: what the internal iterator visits
once the iterator is positioned on the list. -/
def key_group : List (msgentry msg) → List (msgentry msg)
  | [] => []
  | e :: r => e :: r.takeWhile (same_key e.key)

/-- The split key after the inner loop of `_leaf_split` has counted the entries
`g` from `i` on: the key of the entry counted `mid`, if there is one. -/
def spk_fold (mid : Nat) : Nat → List (msgentry msg) → Option msg → Option msg
  | _, [], spk => spk
  | i, e :: g, spk => spk_fold mid (i + 1) g (if i = mid then some e.key else spk)

/-- The buffer content after the entries `g` were put one by one. -/
def put_all (l g : List (msgentry msg)) : List (msgentry msg) :=
  g.foldl (fun acc e => msgbuf_insert e acc) l

/-- `pivots_in_a` of `_nonleaf_split`: `pivots_old / 2` with
`pivots_old = n_children - 1`. -/
def pivots_in_a (nd : node msg) : Nat := (nd.n_children - 1) / 2

/-- `pivots_in_b` of `_nonleaf_split`: `pivots_old - pivots_in_a`. -/
def pivots_in_b (nd : node msg) : Nat := (nd.n_children - 1) - (nd.n_children - 1) / 2

/-- The pivots of a node are strictly increasing under the key order:
`pivots[i] < pivots[j]` for `i < j < n_children - 1`. -/
def pivots_sorted (nd : node msg) : Prop :=
  ∀ j, j < nd.n_children - 1 → ∀ i, i < j → nd.pivots i < nd.pivots j

instance (nd : node msg) : Decidable (pivots_sorted nd) := by
  unfold pivots_sorted
  exact inferInstance

end Aux

/-! ## A concrete instance

The collaborators below instantiate `collab` at natural-number keys so that the
model can be run on concrete trees. They follow the specification: the size of
a buffer charges one unit per entry, a node sums over its buffers, a leaf apply
appends to the leaf buffer and raises the node MSN, the partition of a key is
the number of pivots that are not greater than the key, and the heaviest
partition is the first one of maximal buffer size. -/

/-- Sum of `f 0 .. f (k - 1)`. -/
def sum_upto (f : Nat → Nat) : Nat → Nat
  | 0 => 0
  | k + 1 => sum_upto f k + f k

/-- Number of indices `i < k` with `p i`. -/
def count_upto (p : Nat → Bool) : Nat → Nat
  | 0 => 0
  | k + 1 => count_upto p k + (if p k then 1 else 0)

/-- First index below `k` at which `f` is maximal (0 when `k = 0`). -/
def argmax_upto (f : Nat → Nat) : Nat → Nat
  | 0 => 0
  | k + 1 => if f (argmax_upto f k) < f k then k else argmax_upto f k

/-- Modelled from the spec: a byte-size estimate of a buffer, one unit per entry. -/
def demo_memsize (b : Option (msgbuf Nat)) : Nat :=
  match b with
  | some mb => mb.entries.length
  | none => 0

/-- Modelled from the spec: node_size, the bytes buffered in a node. -/
def demo_node_size (nd : node Nat) : Nat :=
  if nd.height = 0 then demo_memsize nd.l_buffer
  else sum_upto (fun i => demo_memsize (nd.parts i).buffer) nd.n_children

/-- Modelled from the spec: node_count, the entries buffered in a node. -/
def demo_node_count (nd : node Nat) : Nat :=
  if nd.height = 0 then demo_memsize nd.l_buffer
  else sum_upto (fun i => demo_memsize (nd.parts i).buffer) nd.n_children

/-- Modelled from the spec: node_partition_idx, the partition whose keyspace
holds the key (keys of partition `i + 1` are at least `pivots[i]`). -/
def demo_partition_idx (nd : node Nat) (k : Nat) : Nat :=
  count_upto (fun i => decide (nd.pivots i ≤ k)) (nd.n_children - 1)

/-- Modelled from the spec: node_find_heaviest_idx, the partition of maximal
buffer size. -/
def demo_find_heaviest_idx (nd : node Nat) : Nat :=
  argmax_upto (fun i => demo_memsize (nd.parts i).buffer) nd.n_children

/-- Modelled from the spec: leaf_apply_msg appends the message to the leaf
buffer, raises the node MSN to the MSN of the command and marks the leaf dirty. -/
def demo_leaf_apply_msg (leaf : node Nat) (cmd : bt_cmd Nat) : node Nat :=
  { leaf with
    l_buffer := (match leaf.l_buffer with
      | some mb => some (msgbuf_put mb cmd.msn cmd.type cmd.key cmd.val cmd.xidpair)
      | none => none),
    msn := (if cmd.msn > leaf.msn then cmd.msn else leaf.msn),
    dirty := 1 }

/-- The concrete collaborators: `NID_START = 3`, `NESS_OK = 1`, `NESS_ERR = 0`. -/
def demo_collab : collab Nat :=
  { NID_START := 3, NESS_OK := 1, NESS_ERR := 0,
    msgbuf_memsize := demo_memsize,
    node_size := demo_node_size,
    node_count := demo_node_count,
    node_partition_idx := demo_partition_idx,
    node_find_heaviest_idx := demo_find_heaviest_idx,
    leaf_apply_msg := demo_leaf_apply_msg }

/-- An insert entry with the given MSN and key, value 0, no transaction. -/
def demo_entry (msn : Nat) (key : Nat) : msgentry Nat :=
  { msn := msn, type := msgtype_t.MSG_INSERT, key := key, val := 0,
    xidpair := { child_xid := TXNID_NONE, parent_xid := TXNID_NONE } }

/-- A node with no buffer, no child and zeroed fields. -/
def demo_node (nid : Nat) (height : Nat) : node Nat :=
  { nid := nid, height := height, isroot := 0, dirty := 0, msn := 0,
    l_buffer := none, n_children := 0,
    pivots := fun _ => 0, parts := fun _ => { child_nid := 0, buffer := none } }

/-- A leaf with the given NID, MSN and buffer entries. -/
def demo_leaf (nid : Nat) (msn : Nat) (es : List (msgentry Nat)) : node Nat :=
  { demo_node nid 0 with msn := msn, l_buffer := some { entries := es } }

/-- Options with the given leaf count threshold and fanout; the size thresholds
are out of reach. -/
def demo_opts (leaf_count fanout : Nat) : options :=
  { leaf_node_page_size := 1000000, leaf_node_page_count := leaf_count,
    inner_node_page_size := 1000000, inner_node_page_count := 1000000,
    inner_node_fanout := fanout, compress_method := 0, use_directio := 0 }

/-- Zeroed status counters. -/
def demo_status : status :=
  { tree_add_pivots_nums := 0, tree_leaf_split_nums := 0, tree_nonleaf_split_nums := 0,
    tree_root_new_nums := 0, tree_flush_child_nums := 0, tree_leaf_put_nums := 0,
    tree_nonleaf_put_nums := 0 }

/-- A tree whose cache holds exactly the given root under `root_nid` and evicts
nothing. -/
def demo_tree (h : hdr) (o : options) (root : node Nat) : tree Nat :=
  { hdr := h, opts := o, status := demo_status,
    cf := { nodes := fun nid => if nid = h.root_nid then some root else none,
            evict := [] } }

/-- The tree `tree_open` creates for a new file: the header of `tree_open_hdr`,
an empty leaf root with `isroot = 1` under the first allocated NID. -/
def demo_fresh_tree (o : options) : tree Nat :=
  let h := tree_open_hdr demo_collab o
  let h1 : hdr := { h with last_nid := h.last_nid + 1, root_nid := h.last_nid + 1 }
  demo_tree h1 o { demo_leaf h1.root_nid 0 [] with isroot := 1, dirty := 1 }

/-- An interior node of height 1 with the given pivots and partitions (child NID
and buffer entries of each). -/
def demo_inner (nid : Nat) (pivots : List Nat)
    (parts : List (Nat × List (msgentry Nat))) : node Nat :=
  { demo_node nid 1 with
    n_children := parts.length,
    pivots := fun i => pivots.getD i 0,
    parts := fun i => match parts.get? i with
      | some (c, es) => { child_nid := c, buffer := some { entries := es } }
      | none => { child_nid := 0, buffer := none } }

/-- The arguments of an insert of the given key without a transaction. -/
def demo_put (k : Nat) : put_args Nat :=
  { k := k, v := 0, type := msgtype_t.MSG_INSERT, txn := none }

/-- A tree with an empty leaf root under NID 4 whose header was read with the
given `last_msn`. -/
def demo_tree_at (last_msn : Nat) : tree Nat :=
  demo_tree { root_nid := 4, height := 0, last_nid := 4, last_msn := last_msn, method := 0 }
    (demo_opts 100 4) { demo_leaf 4 0 [] with isroot := 1 }

/-- A parent of height 1 under NID 4 whose partition 0 (child 5) buffers the
entries with MSN 1 and 2 and whose partition 1 (child 6) has an empty buffer. -/
def demo_flush_parent : node Nat :=
  demo_inner 4 [10] [(5, [demo_entry 1 1, demo_entry 2 2]), (6, [])]

/-- A tree holding `demo_flush_parent` as root and, as child 5, a leaf that has
already seen MSN 1. -/
def demo_flush_tree : tree Nat :=
  cache_write
    (demo_tree { root_nid := 4, height := 1, last_nid := 6, last_msn := 2, method := 0 }
      (demo_opts 100 4) demo_flush_parent)
    (demo_leaf 5 1 [demo_entry 1 1])

/-- A leaf under NID 4 that has seen MSN 3 and buffers the keys 1, 2, 3. -/
def demo_leaf3 : node Nat :=
  demo_leaf 4 3 [demo_entry 1 1, demo_entry 2 2, demo_entry 3 3]

/-- An interior node under NID 4 with the pivots 10, 20, 30 and the children 5,
6, 7, 8; the partitions of the children 5 and 7 buffer one entry each. -/
def demo_inner4 : node Nat :=
  demo_inner 4 [10, 20, 30] [(5, [demo_entry 1 1]), (6, []), (7, [demo_entry 2 25]), (8, [])]

/-- A tree with `demo_inner4` as root: height 1, NIDs up to 8 allocated. -/
def demo_tree4 : tree Nat :=
  demo_tree { root_nid := 4, height := 1, last_nid := 8, last_msn := 2, method := 0 }
    (demo_opts 100 4) { demo_inner4 with isroot := 1 }

/-- A tree whose root is `demo_leaf3` (NID 4) and in which NID 5 has just been
allocated. -/
def demo_tree_split : tree Nat :=
  demo_tree { root_nid := 4, height := 0, last_nid := 5, last_msn := 3, method := 0 }
    (demo_opts 3 4) { demo_leaf3 with isroot := 1 }

/-- The node the cache creates for a new root under NID 5: height 1, two
children, no buffers yet. -/
def demo_new_root : node Nat :=
  { demo_node 5 1 with n_children := 2 }

/-- Options under which an interior node that buffers two entries is FLUSHBLE. -/
def demo_opts_flush : options :=
  { demo_opts 100 4 with inner_node_page_count := 2 }

/-- A tree whose root is `demo_flush_parent` (NID 4), FLUSHBLE under
`demo_opts_flush`, and whose cache cannot fetch the children 5 and 6. -/
def demo_tree_nochild : tree Nat :=
  demo_tree { root_nid := 4, height := 1, last_nid := 6, last_msn := 2, method := 0 }
    demo_opts_flush demo_flush_parent

/-- A tree whose cache cannot fetch any node, the root (NID 4) included; the
header was read with `last_msn = 7`. -/
def demo_tree_noroot : tree Nat :=
  { hdr := { root_nid := 4, height := 0, last_nid := 4, last_msn := 7, method := 0 },
    opts := demo_opts 100 4, status := demo_status,
    cf := { nodes := fun _ => none, evict := [] } }

/-- A parent under NID 4 with the pivot 10 and the children 5 (keys below 10)
and 6 (keys from 10 on), both partition buffers empty. -/
def demo_parent10 : node Nat :=
  demo_inner 4 [10] [(5, []), (6, [])]

/-- The leaf under NID 6 (child 1 of `demo_parent10`): it buffers an insert and
an update of the key 10 (MSN 1 and 2) and an insert of the key 12 (MSN 3). -/
def demo_leaf_dup : node Nat :=
  demo_leaf 6 3 [demo_entry 1 10,
    { demo_entry 2 10 with type := msgtype_t.MSG_UPDATE }, demo_entry 3 12]

/-- A tree with `demo_parent10` as root and `demo_leaf_dup` as its child 6. -/
def demo_tree_dup : tree Nat :=
  cache_write
    (demo_tree { root_nid := 4, height := 1, last_nid := 6, last_msn := 3, method := 0 }
      (demo_opts 3 4) demo_parent10)
    demo_leaf_dup

/-- A tree whose root is the leaf with the keys 1, 2, 3 (NID 4), FISSIBLE at
`leaf_node_page_count = 3`, and whose cache evicts the node of the fourth unpin
to come. -/
def demo_tree_evict : tree Nat :=
  { hdr := { root_nid := 4, height := 0, last_nid := 4, last_msn := 3, method := 0 },
    opts := demo_opts 3 4, status := demo_status,
    cf := { nodes := fun nid => if nid = 4 then some { demo_leaf3 with isroot := 1 } else none,
            evict := [false, false, false, true] } }

section Proofs

set_option linter.unusedSectionVars false

variable {msg : Type} [LinearOrder msg] [Inhabited msg]

/-! ## List indexing -/

lemma get_append_lt {α : Type} (l₁ l₂ : List α) (n : Nat) (h : n < l₁.length) :
    (l₁ ++ l₂).get? n = l₁.get? n := by
  simp [List.getElem?_append_left h]

lemma get_append_ge {α : Type} (l₁ l₂ : List α) (n : Nat) (h : l₁.length ≤ n) :
    (l₁ ++ l₂).get? n = l₂.get? (n - l₁.length) := by
  simp [List.getElem?_append_right h]

/-! ## Reactivity -/

/-- The `haszero` loop returns 0 exactly when no visited partition buffer has
memsize 0. -/
lemma get_reactivity_haszero_eq_zero (X : collab msg) (nd : node msg) (k i : Nat) :
    _get_reactivity_haszero X nd k i = 0 ↔
      ∀ j, i ≤ j → j < i + k → X.msgbuf_memsize (nd.parts j).buffer ≠ 0 := by
  induction k generalizing i with
  | zero =>
    simp only [_get_reactivity_haszero, true_iff]
    intro j h1 h2
    omega
  | succ k ih =>
    unfold _get_reactivity_haszero
    by_cases h : X.msgbuf_memsize (nd.parts i).buffer = 0
    · simp only [h, if_true]
      constructor
      · intro h0
        exact absurd h0 (by decide)
      · intro hall
        exact absurd h (hall i (le_refl i) (by omega))
    · simp only [h, if_false]
      rw [ih (i + 1)]
      constructor
      · intro hall j h1 h2
        rcases Nat.eq_or_lt_of_le h1 with heq | hlt
        · subst heq
          exact h
        · exact hall j hlt (by omega)
      · intro hall j h1 h2
        exact hall j (by omega) (by omega)

/-- C1. `_get_reactivity` equals the decision table of the specification for
every node and every option set, provided the byte-size estimate of a buffer is 0
exactly for an empty buffer and the partition buffers of the node are allocated:
a leaf is FISSIBLE iff `(size >= leaf_node_page_size and count > 1) or
count >= leaf_node_page_count` and STABLE otherwise, never FLUSHBLE; an interior
node is FISSIBLE when it has at least `inner_node_fanout` children, otherwise
FLUSHBLE iff `(size > inner_node_page_size and no partition buffer is empty) or
count >= inner_node_page_count`, and STABLE otherwise. -/
theorem get_reactivity_eq_table (X : collab msg) (t : tree msg) (nd : node msg)
    (hmem : ∀ mb : msgbuf msg, X.msgbuf_memsize (some mb) = 0 ↔ mb.entries = [])
    (hbuf : nd.height ≠ 0 → ∀ i, i < nd.n_children → (nd.parts i).buffer ≠ none) :
    _get_reactivity X t nd = reactivity_table X t nd ∧
      (nd.height = 0 → _get_reactivity X t nd ≠ reactivity.FLUSHBLE) := by
  have hz : nd.height ≠ 0 → ((_get_reactivity_haszero X nd nd.n_children 0 = 0) ↔
      ¬ (∃ i, i < nd.n_children ∧ buffer_empty (nd.parts i).buffer = true)) := by
    intro hh
    have hbuf := hbuf hh
    rw [get_reactivity_haszero_eq_zero]
    constructor
    · rintro hall ⟨i, hi, he⟩
      have hne := hbuf i hi
      cases hb : (nd.parts i).buffer with
      | none => exact hne hb
      | some mb =>
        rw [hb] at he
        have : mb.entries = [] := by
          simpa [buffer_empty, List.isEmpty_iff] using he
        exact hall i (Nat.zero_le i) (by omega) (by rw [hb]; exact (hmem mb).2 this)
    · intro hno j _ hj h0
      have hne := hbuf j (by omega)
      cases hb : (nd.parts j).buffer with
      | none => exact hne hb
      | some mb =>
        rw [hb] at h0
        have hem : mb.entries = [] := (hmem mb).1 h0
        exact hno ⟨j, by omega, by simp [buffer_empty, hb, hem]⟩
  constructor
  · unfold _get_reactivity reactivity_table
    by_cases hh : nd.height = 0
    · simp only [hh, if_true]
    · simp only [hh, if_false]
      by_cases hf : nd.n_children ≥ t.opts.inner_node_fanout
      · simp only [hf, if_true]
      · simp only [hf, if_false, hz hh]
  · intro hh
    unfold _get_reactivity
    simp only [hh, if_true]
    split <;> simp

/-- Witness for C1: an interior node with two children, one of them with an
empty buffer, under the concrete collaborators. -/
theorem get_reactivity_eq_table_witness :
    (∀ mb : msgbuf Nat, demo_collab.msgbuf_memsize (some mb) = 0 ↔ mb.entries = []) ∧
    ((demo_inner 4 [5] [(5, [demo_entry 1 1]), (6, [])]).height ≠ 0 →
      ∀ i, i < (demo_inner 4 [5] [(5, [demo_entry 1 1]), (6, [])]).n_children →
      ((demo_inner 4 [5] [(5, [demo_entry 1 1]), (6, [])]).parts i).buffer ≠ none) ∧
    _get_reactivity demo_collab
        (demo_tree (tree_open_hdr demo_collab (demo_opts 3 4)) (demo_opts 3 4) (demo_leaf 0 0 []))
        (demo_inner 4 [5] [(5, [demo_entry 1 1]), (6, [])]) =
      reactivity_table demo_collab
        (demo_tree (tree_open_hdr demo_collab (demo_opts 3 4)) (demo_opts 3 4) (demo_leaf 0 0 []))
        (demo_inner 4 [5] [(5, [demo_entry 1 1]), (6, [])]) :=
  have hmem : ∀ mb : msgbuf Nat,
      demo_collab.msgbuf_memsize (some mb) = 0 ↔ mb.entries = [] := by
    intro mb
    simp [demo_collab, demo_memsize]
  have hbuf : (demo_inner 4 [5] [(5, [demo_entry 1 1]), (6, [])]).height ≠ 0 →
      ∀ i, i < (demo_inner 4 [5] [(5, [demo_entry 1 1]), (6, [])]).n_children →
      ((demo_inner 4 [5] [(5, [demo_entry 1 1]), (6, [])]).parts i).buffer ≠ none := by
    decide
  ⟨hmem, hbuf, (get_reactivity_eq_table demo_collab _ _ hmem hbuf).1⟩

/-! ## The header counter `last_msn` is written by `hdr_next_msn` only -/

@[simp] lemma cache_write_hdr (t : tree msg) (nd : node msg) :
    (cache_write t nd).hdr = t.hdr := rfl

@[simp] lemma cache_unpin_hdr (t : tree msg) (nd : node msg) :
    (cache_unpin t nd).hdr = t.hdr := rfl

@[simp] lemma cache_write_opts (t : tree msg) (nd : node msg) :
    (cache_write t nd).opts = t.opts := rfl

@[simp] lemma cache_unpin_opts (t : tree msg) (nd : node msg) :
    (cache_unpin t nd).opts = t.opts := rfl

lemma cache_create_cf (X : collab msg) (t t1 : tree msg) (height children : Nat)
    (nd : node msg) (h : cache_create_node_and_pin X t height children = .ok (t1, nd)) :
    t1.cf = t.cf := by
  unfold cache_create_node_and_pin hdr_next_nid at h
  simp only at h
  split at h
  · cases h
  · rename_i t2 nid heq
    split at heq
    · cases heq
      cases h
      rfl
    · cases heq

/-- Neither split touches the cache: the new node stays pinned. -/
lemma node_split_cf (X : collab msg) (t t1 : tree msg) (nd a b : node msg)
    (spk : Option msg)
    (h : (if nd.height = 0 then _leaf_split X t nd else _nonleaf_split X t nd) =
      .ok (t1, a, b, spk)) :
    t1.cf = t.cf := by
  split at h
  · unfold _leaf_split at h
    split at h
    · cases h
    · simp only at h
      split at h
      · cases h
      · split at h
        · cases h
        · rename_i t2 leafb0 heq
          have h1 := cache_create_cf X t t2 0 0 leafb0 heq
          cases h
          exact h1
  · unfold _nonleaf_split at h
    simp only at h
    split at h
    · split at h
      · cases h
      · rename_i t2 nodeb0 heq
        have h1 := cache_create_cf X t t2 _ _ nodeb0 heq
        cases h
        exact h1
    · cases h

lemma hdr_next_nid_last_msn (X : collab msg) (t t1 : tree msg) (nid : Nat)
    (h : hdr_next_nid X t = .ok (t1, nid)) : t1.hdr.last_msn = t.hdr.last_msn := by
  unfold hdr_next_nid at h
  simp only at h
  split at h
  · cases h
    rfl
  · cases h

lemma cache_create_last_msn (X : collab msg) (t t1 : tree msg) (height children : Nat)
    (nd : node msg) (h : cache_create_node_and_pin X t height children = .ok (t1, nd)) :
    t1.hdr.last_msn = t.hdr.last_msn := by
  unfold cache_create_node_and_pin at h
  split at h
  · cases h
  · rename_i t2 nid heq
    cases h
    exact hdr_next_nid_last_msn X t _ nid heq

lemma add_pivot_hdr (t : tree msg) (parent : node msg) (child_num : Nat) (a b : node msg)
    (spk : msg) : (_add_pivot_to_parent t parent child_num a b spk).1.hdr = t.hdr := rfl

lemma leaf_split_last_msn (X : collab msg) (t t1 : tree msg) (leaf a b : node msg)
    (spk : Option msg) (h : _leaf_split X t leaf = .ok (t1, a, b, spk)) :
    t1.hdr.last_msn = t.hdr.last_msn := by
  unfold _leaf_split at h
  split at h
  · cases h
  · simp only at h
    split at h
    · cases h
    · split at h
      · cases h
      · rename_i t2 leafb0 heq
        cases h
        exact cache_create_last_msn X t t2 0 0 leafb0 heq

lemma nonleaf_split_last_msn (X : collab msg) (t t1 : tree msg) (nd a b : node msg)
    (spk : Option msg) (h : _nonleaf_split X t nd = .ok (t1, a, b, spk)) :
    t1.hdr.last_msn = t.hdr.last_msn := by
  unfold _nonleaf_split at h
  simp only at h
  split at h
  · split at h
    · cases h
    · rename_i t2 nodeb0 heq
      cases h
      exact cache_create_last_msn X t t2 _ _ nodeb0 heq
  · cases h

lemma node_split_last_msn (X : collab msg) (t t1 : tree msg) (nd a b : node msg)
    (spk : Option msg)
    (h : (if nd.height = 0 then _leaf_split X t nd else _nonleaf_split X t nd) =
      .ok (t1, a, b, spk)) :
    t1.hdr.last_msn = t.hdr.last_msn := by
  split at h
  · exact leaf_split_last_msn X t t1 nd a b spk h
  · exact nonleaf_split_last_msn X t t1 nd a b spk h

lemma node_split_child_last_msn (X : collab msg) (t t1 : tree msg) (parent child p1 c1 : node msg)
    (h : _node_split_child X t parent child = .ok (t1, p1, c1)) :
    t1.hdr.last_msn = t.hdr.last_msn := by
  unfold _node_split_child at h
  split at h
  · cases h
  · cases h
  · rename_i t2 a b k heq
    simp only at h
    cases h
    exact node_split_last_msn X t t2 child _ b (some k) heq

lemma node_put_cmd_hdr (X : collab msg) (t t1 : tree msg) (nd nd1 : node msg) (cmd : bt_cmd msg)
    (h : _node_put_cmd X t nd cmd = .ok (t1, nd1)) : t1.hdr = t.hdr := by
  unfold _node_put_cmd at h
  split at h
  · cases h
    rfl
  · split at h
    · cases h
    · cases h
      rfl

lemma flush_drain_hdr (X : collab msg) (msn : Nat) (f : Nat) :
    ∀ (t t1 : tree msg) (child child1 : node msg) (iter : msgbuf_iter msg),
      _flush_drain X msn f t child iter = .ok (t1, child1) → t1.hdr = t.hdr := by
  induction f with
  | zero =>
    intro t t1 child child1 iter h
    simp [_flush_drain] at h
  | succ f ih =>
    intro t t1 child child1 iter h
    unfold _flush_drain at h
    split at h
    · split at h
      · exact ih _ _ _ _ _ h
      · simp only at h
        split at h
        · cases h
        · rename_i t2 c2 heq
          rw [ih _ _ _ _ _ h]
          exact node_put_cmd_hdr X t t2 child c2 _ heq
    · cases h
      rfl

lemma flush_some_child_last_msn (X : collab msg) (n f : Nat) :
    ∀ (t t1 : tree msg) (parent : node msg) (code : Int),
      _flush_some_child X n f t parent = .ok (t1, code) →
      t1.hdr.last_msn = t.hdr.last_msn := by
  induction f with
  | zero =>
    intro t t1 parent code h
    simp [_flush_some_child] at h
  | succ f ih =>
    intro t t1 parent code h
    unfold _flush_some_child at h
    simp only at h
    split at h
    · split at h
      · cases h
        rfl
      · split at h
        · cases h
        · cases h
        · rename_i child mb
          split at h
          · cases h
          · rename_i t2 child1 hdrain
            have h2 : t2.hdr = t.hdr := flush_drain_hdr X _ n t t2 _ child1 _ hdrain
            split at h
            · cases h
              simp [h2]
            · split at h
              · cases h
              · rename_i t3 p3 c3 hsplit
                cases h
                have h3 := node_split_child_last_msn X t2 t3 _ _ p3 c3 hsplit
                simp [h3, h2]
            · split at h
              · split at h
                · cases h
                · rename_i t3 c3 hrec
                  cases h
                  have h3 := ih _ _ _ _ hrec
                  simp [h3, h2]
              · cases h
    · cases h

lemma root_split_last_msn (X : collab msg) (t t1 : tree msg) (new_root old_root nr1 or1 : node msg)
    (h : _root_split X t new_root old_root = .ok (t1, nr1, or1)) :
    t1.hdr.last_msn = t.hdr.last_msn := by
  unfold _root_split at h
  split at h
  · cases h
  · cases h
  · rename_i t2 a b k heq
    simp only [_root_swap] at h
    cases h
    exact node_split_last_msn X t t2 old_root a b (some k) heq

lemma root_put_cmd_split_last_msn (X : collab msg) (t t1 : tree msg) (root nr : node msg)
    (h : root_put_cmd_split X t root = .ok (t1, nr)) :
    t1.hdr.last_msn = t.hdr.last_msn := by
  unfold root_put_cmd_split at h
  simp only at h
  split at h
  · cases h
  · rename_i t2 new_root hcreate
    split at h
    · cases h
    · rename_i t3 nr1 r1 hsplit
      have h2 := cache_create_last_msn X t t2 _ _ new_root hcreate
      have h3 := root_split_last_msn X t2 t3 new_root root nr1 r1 hsplit
      cases h
      simp [h3, h2]

lemma root_put_loop_last_msn (X : collab msg) (n f : Nat) :
    ∀ (t t1 : tree msg) (locktype : lock_type) (out : root_loop_out msg),
      root_put_loop X n f t locktype = .ok (t1, out) →
      t1.hdr.last_msn = t.hdr.last_msn := by
  induction f with
  | zero =>
    intro t t1 locktype out h
    simp [root_put_loop] at h
  | succ f ih =>
    intro t t1 locktype out h
    unfold root_put_loop at h
    split at h
    rename_i st r hpin
    split at h
    · cases h
      rfl
    · split at h
      · cases h
      · rename_i root
        split at h
        · cases h
          rfl
        · split at h
          · have h2 := ih _ _ _ _ h
            simpa using h2
          · split at h
            · cases h
            · rename_i t2 nr hsplit
              have h2 := ih _ _ _ _ h
              rw [h2]
              exact root_put_cmd_split_last_msn X t t2 root nr hsplit
        · split at h
          · have h2 := ih _ _ _ _ h
            simpa using h2
          · split at h
            · cases h
            · rename_i t2 code hflush
              have h2 := ih _ _ _ _ h
              rw [h2]
              exact flush_some_child_last_msn X n n t t2 root code hflush

lemma root_put_cmd_last_msn (X : collab msg) (n fuel : Nat) (t t1 : tree msg) (cmd : bt_cmd msg)
    (code : Int) (h : root_put_cmd X n fuel t cmd = .ok (t1, code)) :
    t1.hdr.last_msn = t.hdr.last_msn := by
  unfold root_put_cmd at h
  split at h
  · cases h
  · rename_i t2 c hloop
    cases h
    exact root_put_loop_last_msn X n fuel t _ _ _ hloop
  · rename_i t2 root lt hloop
    split at h
    · cases h
    · rename_i t3 root1 hput
      cases h
      have h2 := root_put_loop_last_msn X n fuel t t2 _ _ hloop
      have h3 := node_put_cmd_hdr X t2 t3 root root1 cmd hput
      simp [h3, h2]

/-! ## MSN allocation -/

lemma tree_put_cmd_msn (t : tree msg) (k v : msg) (type : msgtype_t) (txn : Option TXN) :
    (tree_put_cmd t k v type txn).2.msn = (t.hdr.last_msn + 1) % UINT64_MOD ∧
    (tree_put_cmd t k v type txn).1.hdr.last_msn = (t.hdr.last_msn + 1) % UINT64_MOD := by
  constructor <;> rfl

/-- The commands of a run of `tree_put` calls carry consecutive MSNs as long as
the counter does not wrap. -/
lemma tree_puts_get (X : collab msg) (n fuel : Nat) (ps : List (put_args msg)) :
    ∀ (t : tree msg), t.hdr.last_msn + ps.length < UINT64_MOD →
      (∀ j c, (tree_puts X n fuel t ps).1.get? j = some c → c.msn = t.hdr.last_msn + j + 1) ∧
      (∀ t1, (tree_puts X n fuel t ps).2 = .ok t1 →
        (tree_puts X n fuel t ps).1.length = ps.length ∧
        t1.hdr.last_msn = t.hdr.last_msn + ps.length) := by
  induction ps with
  | nil =>
    intro t _
    constructor
    · intro j c h
      simp [tree_puts] at h
    · intro t1 h
      simp only [tree_puts] at h
      cases h
      simp [tree_puts]
  | cons p ps ih =>
    intro t hw
    have hlen : (p :: ps).length = ps.length + 1 := rfl
    rw [hlen] at hw
    obtain ⟨hm, hl⟩ := tree_put_cmd_msn t p.k p.v p.type p.txn
    have hmod : (t.hdr.last_msn + 1) % UINT64_MOD = t.hdr.last_msn + 1 :=
      Nat.mod_eq_of_lt (by omega)
    rw [hmod] at hm hl
    unfold tree_puts
    simp only
    cases hr : root_put_cmd X n fuel (tree_put_cmd t p.k p.v p.type p.txn).1
        (tree_put_cmd t p.k p.v p.type p.txn).2 with
    | error e =>
      simp only
      constructor
      · intro j c h
        cases j with
        | zero =>
          simp only [List.get?_cons_zero, Option.some.injEq] at h
          subst h
          simpa using hm
        | succ j => simp at h
      · intro t1 h
        cases h
    | ok r =>
      obtain ⟨t2, code⟩ := r
      simp only
      have h2 : t2.hdr.last_msn = t.hdr.last_msn + 1 := by
        rw [root_put_cmd_last_msn X n fuel _ t2 _ code hr, hl]
      obtain ⟨ih1, ih2⟩ := ih t2 (by omega)
      constructor
      · intro j c h
        cases j with
        | zero =>
          simp only [List.get?_cons_zero, Option.some.injEq] at h
          subst h
          simpa using hm
        | succ j =>
          simp only [List.get?_cons_succ] at h
          rw [ih1 j c h, h2]
          omega
      · intro t1 h
        obtain ⟨h3, h4⟩ := ih2 t1 h
        constructor
        · simp [h3]
        · rw [h4, h2]
          omega

/-- C2 (amended). `hdr_next_msn` stores and returns `(last_msn + 1) mod 2^64`. Over
any sequence of `tree_put` calls during which the 64-bit counter does not wrap
(`last_msn` plus the number of calls stays below `2^64`), every assigned MSN is
strictly greater than every MSN assigned before it, so no two commands share an
MSN; the `j`-th command (from 0) carries `last_msn + j + 1`, and a run that
returns leaves `last_msn` raised by the number of calls. A newly created tree
starts at `last_msn = 0`, so there the `k`-th put carries MSN `k` and leaves
`last_msn = k`. -/
theorem tree_puts_msn_increasing (X : collab msg) (n fuel : Nat) (t : tree msg)
    (ps : List (put_args msg)) (hwrap : t.hdr.last_msn + ps.length < UINT64_MOD) :
    (hdr_next_msn t).2 = (t.hdr.last_msn + 1) % UINT64_MOD ∧
    (hdr_next_msn t).1.hdr.last_msn = (t.hdr.last_msn + 1) % UINT64_MOD ∧
    (tree_puts X n fuel t ps).1.Pairwise (fun c1 c2 => c1.msn < c2.msn) ∧
    (∀ j c, (tree_puts X n fuel t ps).1.get? j = some c → c.msn = t.hdr.last_msn + j + 1) ∧
    (∀ t1, (tree_puts X n fuel t ps).2 = .ok t1 →
      (tree_puts X n fuel t ps).1.length = ps.length ∧
      t1.hdr.last_msn = t.hdr.last_msn + ps.length) ∧
    (tree_open_hdr X t.opts).last_msn = 0 := by
  obtain ⟨h1, h2⟩ := tree_puts_get X n fuel ps t hwrap
  refine ⟨rfl, rfl, ?_, h1, h2, rfl⟩
  rw [List.pairwise_iff_get]
  intro i j hij
  have hi := h1 i.1 _ (List.get?_eq_get i.2)
  have hj := h1 j.1 _ (List.get?_eq_get j.2)
  rw [hi, hj]
  have : i.1 < j.1 := hij
  omega

/-- Counterexample to C2 as stated: on a tree whose header holds
`last_msn = 2^64 - 2`, two `tree_put` calls are assigned the MSNs `2^64 - 1` and
`0`; the second is not greater than the first. -/
theorem tree_puts_msn_wraps :
    (tree_puts demo_collab 10 10 (demo_tree_at (2 ^ 64 - 2)) [demo_put 1, demo_put 2]).1.map
        (fun c => c.msn) = [2 ^ 64 - 1, 0] ∧
    ¬ (tree_puts demo_collab 10 10 (demo_tree_at (2 ^ 64 - 2)) [demo_put 1, demo_put 2]).1.Pairwise
        (fun c1 c2 => c1.msn < c2.msn) := by
  decide

/-- Witness for C2 (amended): three puts on a newly created tree are assigned the
MSNs 1, 2, 3 in strictly increasing order and leave `last_msn = 3`. -/
theorem tree_puts_msn_increasing_witness :
    (demo_fresh_tree (demo_opts 100 4)).hdr.last_msn + [demo_put 1, demo_put 2, demo_put 3].length
        < UINT64_MOD ∧
    (tree_puts demo_collab 10 10 (demo_fresh_tree (demo_opts 100 4))
        [demo_put 1, demo_put 2, demo_put 3]).1.Pairwise (fun c1 c2 => c1.msn < c2.msn) ∧
    (tree_puts demo_collab 10 10 (demo_fresh_tree (demo_opts 100 4))
        [demo_put 1, demo_put 2, demo_put 3]).1.map (fun c => c.msn) = [1, 2, 3] ∧
    (∃ t1, (tree_puts demo_collab 10 10 (demo_fresh_tree (demo_opts 100 4))
        [demo_put 1, demo_put 2, demo_put 3]).2 = .ok t1 ∧ t1.hdr.last_msn = 3) :=
  ⟨by decide,
   (tree_puts_msn_increasing demo_collab 10 10 (demo_fresh_tree (demo_opts 100 4))
      [demo_put 1, demo_put 2, demo_put 3] (by decide)).2.2.1,
   by decide,
   ⟨_, rfl, by decide⟩⟩

/-! ## The drain loop of `_flush_some_child` -/

/-- Once the iterator stands on an entry whose MSN is not above the snapshot,
the drain loop re-enters itself with the same iterator until the fuel is gone:
it returns for no amount of fuel. -/
lemma flush_drain_spins (X : collab msg) (msn : Nat) (f : Nat) :
    ∀ (t : tree msg) (child : node msg) (iter : msgbuf_iter msg),
      msgbuf_iter_valid iter = true → msn ≥ iter.cur.msn →
      _flush_drain X msn f t child iter = .error fault.nofuel := by
  induction f with
  | zero =>
    intro t child iter _ _
    rfl
  | succ f ih =>
    intro t child iter hv hm
    unfold _flush_drain
    simp only [hv, hm, if_true]
    exact ih t child iter hv hm

/-- C3 (the code at the failing input). The parent buffers the entries with MSN 1
and MSN 2 for a child whose MSN snapshot is 1. The claim has the entry with
MSN 2 applied to the child and the entry with MSN 1 skipped; `_flush_some_child`
returns for no amount of fuel: the drain loop spins on the entry with MSN 1 and
never reaches the entry with MSN 2. -/
theorem flush_some_child_spins_on_seen_msn (n f : Nat) :
    _flush_some_child demo_collab n f demo_flush_tree demo_flush_parent =
      .error fault.nofuel := by
  cases f with
  | zero => rfl
  | succ f =>
    have hspin := flush_drain_spins demo_collab 1 n demo_flush_tree (demo_leaf 5 1 [demo_entry 1 1])
      (msgbuf_iter_seektofirst (msgbuf_iter_init { entries := [demo_entry 1 1, demo_entry 2 2] }))
      (by decide) (by decide)
    unfold _flush_some_child
    have h1 : demo_collab.node_find_heaviest_idx demo_flush_parent = 0 := by decide
    have h2 : demo_flush_parent.parts 0 =
        { child_nid := 5, buffer := some { entries := [demo_entry 1 1, demo_entry 2 2] } } := rfl
    have h3 : cache_get_and_pin demo_collab demo_flush_tree 5 lock_type.L_WRITE =
        (1, some (demo_leaf 5 1 [demo_entry 1 1])) := rfl
    have h4 : (0 : Nat) < demo_flush_parent.n_children := by decide
    have h5 : demo_collab.NESS_OK = 1 := rfl
    have h6 : (demo_leaf 5 1 [demo_entry 1 1]).msn = 1 := rfl
    simp only [h1, h2, h3, h4, h5, h6, if_true, ne_eq, not_true_eq_false, if_false]
    rw [hspin]

/-! ## Leaf split -/

lemma msgentry_le_not_lt (a b : msgentry msg) (h : msgentry_le a b) : ¬ msgentry_lt b a := by
  unfold msgentry_le at h
  unfold msgentry_lt
  rintro (h1 | ⟨h1, h2⟩)
  · rcases h with h | ⟨h, _⟩
    · exact lt_asymm h h1
    · rw [h] at h1
      exact lt_irrefl _ h1
  · rcases h with h | ⟨_, h⟩
    · rw [h1] at h
      exact lt_irrefl _ h
    · omega

lemma msgentry_le_key (a b : msgentry msg) (h : msgentry_le a b) : a.key ≤ b.key := by
  rcases h with h | ⟨h, _⟩
  · exact le_of_lt h
  · exact le_of_eq h

/-- Putting an entry that is not below any entry of the buffer appends it. -/
lemma msgbuf_insert_append (e : msgentry msg) (l : List (msgentry msg))
    (h : ∀ x ∈ l, msgentry_le x e) : msgbuf_insert e l = l ++ [e] := by
  induction l with
  | nil => rfl
  | cons b l ih =>
    have hb : ¬ msgentry_lt e b := msgentry_le_not_lt b e (h b (List.mem_cons_self b l))
    simp only [msgbuf_insert, hb, if_false, List.cons_append]
    rw [ih (fun x hx => h x (List.mem_cons_of_mem b hx))]

/-- Putting the entries of a list in iteration order appends them. -/
lemma put_all_append (g : List (msgentry msg)) :
    ∀ l : List (msgentry msg), (l ++ g).Pairwise msgentry_le → put_all l g = l ++ g := by
  induction g with
  | nil =>
    intro l _
    simp [put_all]
  | cons e g ih =>
    intro l h
    have h1 : ∀ x ∈ l, msgentry_le x e := by
      intro x hx
      rw [List.pairwise_append] at h
      exact h.2.2 x hx e (List.mem_cons_self e g)
    have h2 : ((l ++ [e]) ++ g).Pairwise msgentry_le := by
      simpa using h
    have := ih (l ++ [e]) h2
    simp only [put_all, List.foldl_cons] at this ⊢
    rw [msgbuf_insert_append e l h1, this]
    simp

lemma spk_fold_eq (mid : Nat) (g : List (msgentry msg)) :
    ∀ (i : Nat) (spk : Option msg),
      spk_fold mid i g spk =
        if i ≤ mid ∧ mid < i + g.length then (g.get? (mid - i)).map (fun e => e.key) else spk := by
  induction g with
  | nil =>
    intro i spk
    simp only [spk_fold, List.length_nil, Nat.add_zero]
    rw [if_neg]
    omega
  | cons e g ih =>
    intro i spk
    simp only [spk_fold, List.length_cons]
    rw [ih]
    by_cases h1 : i = mid
    · subst h1
      simp
    · by_cases h2 : i + 1 ≤ mid ∧ mid < i + 1 + g.length
      · have h3 : i ≤ mid ∧ mid < i + (g.length + 1) := by omega
        have h4 : mid - i = (mid - (i + 1)) + 1 := by omega
        rw [if_pos h2, if_pos h3, h4, List.get?_cons_succ]
      · have h3 : ¬ (i ≤ mid ∧ mid < i + (g.length + 1)) := by omega
        rw [if_neg h2, if_neg h3, if_neg h1]

/-- The inner loop of `_leaf_split` with enough fuel: it visits the entries left
of the current key, puts each into the buffer and counts it. -/
lemma leaf_split_inner_run (mid : Nat) (g : List (msgentry msg)) :
    ∀ (f : Nat) (it : msgbuf_iter msg) (i : Nat) (mb : msgbuf msg) (spk : Option msg),
      g.length < f → it.same = g →
      ∃ it1, _leaf_split_inner mid f it i mb spk =
          .ok (it1, i + g.length, ⟨put_all mb.entries g⟩, spk_fold mid i g spk) ∧
        it1.rest = it.rest ∧ it1.same = [] := by
  induction g with
  | nil =>
    intro f it i mb spk hf hs
    cases f with
    | zero => omega
    | succ f =>
      refine ⟨it, ?_, rfl, hs⟩
      simp [_leaf_split_inner, msgbuf_internal_iter_next, hs, put_all, spk_fold]
  | cons e g ih =>
    intro f it i mb spk hf hs
    cases f with
    | zero => omega
    | succ f =>
      have hf2 : g.length < f := by
        simp only [List.length_cons] at hf
        omega
      obtain ⟨it1, h1, h2, h3⟩ := ih f { it with same := g, cur := e } (i + 1)
        (msgbuf_put mb e.msn e.type e.key e.val e.xidpair)
        (if i = mid then some e.key else spk) hf2 rfl
      refine ⟨it1, ?_, h2, h3⟩
      simp only [_leaf_split_inner, msgbuf_internal_iter_next, hs]
      rw [h1]
      simp only [List.length_cons, put_all, List.foldl_cons, spk_fold, msgbuf_put]
      have : i + 1 + g.length = i + (g.length + 1) := by omega
      rw [this]

lemma msgbuf_iter_seek_rest (l : List (msgentry msg)) (it : msgbuf_iter msg) :
    (msgbuf_iter_seek l it).rest = l ∧ (msgbuf_iter_seek l it).same = key_group l := by
  cases l <;> exact ⟨rfl, rfl⟩

lemma msgbuf_iter_next_rest (it : msgbuf_iter msg) (e : msgentry msg) (r : List (msgentry msg))
    (h : it.rest = e :: r) :
    (msgbuf_iter_next it).rest = r.dropWhile (same_key e.key) ∧
    (msgbuf_iter_next it).same = key_group (r.dropWhile (same_key e.key)) := by
  unfold msgbuf_iter_next
  rw [h]
  exact msgbuf_iter_seek_rest _ it

lemma key_group_keys (e : msgentry msg) (r : List (msgentry msg)) :
    ∀ x ∈ key_group (e :: r), x.key = e.key := by
  intro x hx
  simp only [key_group, List.mem_cons] at hx
  rcases hx with hx | hx
  · rw [hx]
  · have := List.mem_takeWhile_imp hx
    simpa [same_key] using this

lemma key_group_append (e : msgentry msg) (r : List (msgentry msg)) :
    key_group (e :: r) ++ r.dropWhile (same_key e.key) = e :: r := by
  simp [key_group, List.takeWhile_append_dropWhile]

/-- In a list sorted by key that starts with `e`, whatever follows the entries of
the key of `e` has a greater key. -/
lemma dropWhile_key_gt (e : msgentry msg) (r : List (msgentry msg))
    (h : (e :: r).Pairwise (fun a b => a.key ≤ b.key)) :
    ∀ y ∈ r.dropWhile (same_key e.key), e.key < y.key := by
  induction r with
  | nil =>
    intro y hy
    simp at hy
  | cons y0 r ih =>
    intro y hy
    have hsub : (e :: r).Pairwise (fun a b => a.key ≤ b.key) := by
      rw [List.pairwise_cons] at h ⊢
      refine ⟨fun a ha => h.1 a (List.mem_cons_of_mem y0 ha), ?_⟩
      exact (List.pairwise_cons.1 h.2).2
    by_cases hk : y0.key = e.key
    · have : (y0 :: r).dropWhile (same_key e.key) = r.dropWhile (same_key e.key) := by
        simp [List.dropWhile, same_key, hk]
      rw [this] at hy
      exact ih hsub y hy
    · have : (y0 :: r).dropWhile (same_key e.key) = y0 :: r := by
        simp [List.dropWhile, same_key, hk]
      rw [this] at hy
      have h0 : e.key < y0.key :=
        lt_of_le_of_ne ((List.pairwise_cons.1 h).1 y0 (List.mem_cons_self y0 r)) (Ne.symm hk)
      rcases List.mem_cons.1 hy with hy | hy
      · rw [hy]
        exact h0
      · exact lt_of_lt_of_le h0 ((List.pairwise_cons.1 (List.pairwise_cons.1 h).2).1 y hy)

/-- The outer loop of `_leaf_split` on a well-formed buffer `L` whose entry
counted `mid` is `em`, started at a key boundary after the entries `P`: it
returns, the split key is the key of `em`, buffer A followed by buffer B is `L`,
every key in A is at most the split key and every key in B is greater. -/
lemma leaf_split_outer_run (L : List (msgentry msg)) (mid n : Nat) (em : msgentry msg)
    (hm : L.get? mid = some em) (hs : L.Pairwise msgentry_le) (hn : L.length < n) :
    ∀ (f : Nat) (P R : List (msgentry msg)) (it : msgbuf_iter msg) (i : Nat)
      (A B : msgbuf msg) (spk : Option msg),
      L = P ++ R → R.length < f → it.rest = R → it.same = key_group R → i = P.length →
      A.entries ++ B.entries = P → (i ≤ mid → B.entries = []) →
      spk = (P.get? mid).map (fun e => e.key) →
      (∀ x ∈ A.entries, x.key ≤ em.key) → (∀ x ∈ B.entries, em.key < x.key) →
      (∀ x ∈ P, ∀ y ∈ R, x.key < y.key) →
      ∃ A1 B1 : msgbuf msg,
        _leaf_split_outer mid n f it i A B spk = .ok (A1, B1, some em.key) ∧
        A1.entries ++ B1.entries = L ∧
        (∀ x ∈ A1.entries, x.key ≤ em.key) ∧ (∀ x ∈ B1.entries, em.key < x.key) := by
  intro f
  induction f with
  | zero =>
    intro P R it i A B spk _ hf
    omega
  | succ f ih =>
    intro P R it i A B spk hL hf hrest hsame hi hAB hB hspk hA hBk hbound
    cases R with
    | nil =>
      have hv : msgbuf_iter_valid it = false := by simp [msgbuf_iter_valid, hrest]
      have hLP : L = P := by simpa using hL
      refine ⟨A, B, ?_, by rw [hAB, hLP], hA, hBk⟩
      unfold _leaf_split_outer
      simp only [hv, Bool.false_eq_true, if_false]
      rw [hspk, ← hLP, hm]
      rfl
    | cons e r =>
      have hv : msgbuf_iter_valid it = true := by simp [msgbuf_iter_valid, hrest]
      have hR : key_group (e :: r) ++ r.dropWhile (same_key e.key) = e :: r :=
        key_group_append e r
      have hgk := key_group_keys e r
      have hsk : L.Pairwise (fun a b => a.key ≤ b.key) :=
        hs.imp (fun {a b} h => msgentry_le_key a b h)
      have hRk : (e :: r).Pairwise (fun a b => a.key ≤ b.key) := by
        rw [hL, List.pairwise_append] at hsk
        exact hsk.2.1
      have hdrop := dropWhile_key_gt e r hRk
      have hglen : (key_group (e :: r)).length < n := by
        have h1 : (key_group (e :: r)).length ≤ (e :: r).length := by
          have h0 := congrArg List.length hR
          rw [List.length_append] at h0
          omega
        have h2 : (e :: r).length ≤ L.length := by
          rw [hL]
          simp
        omega
      have hdlen : (r.dropWhile (same_key e.key)).length < f := by
        have h1 : (r.dropWhile (same_key e.key)).length ≤ r.length :=
          (List.dropWhile_sublist _).length_le
        simp only [List.length_cons] at hf
        omega
      have hL2 : L = (P ++ key_group (e :: r)) ++ r.dropWhile (same_key e.key) := by
        rw [List.append_assoc, hR, hL]
      have hbound2 : ∀ x ∈ P ++ key_group (e :: r), ∀ y ∈ r.dropWhile (same_key e.key),
          x.key < y.key := by
        intro x hx y hy
        rcases List.mem_append.1 hx with hx | hx
        · refine hbound x hx y ?_
          rw [← hR]
          exact List.mem_append_right _ hy
        · rw [hgk x hx]
          exact hdrop y hy
      by_cases hcase : i ≤ mid
      · obtain ⟨it1, hin, hr1, hs1⟩ :=
          leaf_split_inner_run mid (key_group (e :: r)) n it i A spk hglen (by rw [hsame])
        have hBnil := hB hcase
        have hAP : A.entries = P := by simpa [hBnil] using hAB
        have hput : put_all A.entries (key_group (e :: r)) = A.entries ++ key_group (e :: r) := by
          apply put_all_append
          rw [hAP]
          rw [hL2, List.pairwise_append] at hs
          exact hs.1
        have hnext := msgbuf_iter_next_rest it1 e r (by rw [hr1, hrest])
        have hem : em ∈ e :: r := by
          have h1 : (P ++ (e :: r)).get? mid = some em := by rw [← hL]; exact hm
          rw [get_append_ge _ _ _ (by omega)] at h1
          exact List.get?_mem h1
        have hek : e.key ≤ em.key := by
          rcases List.mem_cons.1 hem with h | h
          · rw [h]
          · exact (List.pairwise_cons.1 hRk).1 em h
        obtain ⟨A1, B1, h1, h2, h3, h4⟩ := ih (P ++ key_group (e :: r))
          (r.dropWhile (same_key e.key)) (msgbuf_iter_next it1) (i + (key_group (e :: r)).length)
          ⟨put_all A.entries (key_group (e :: r))⟩ B (spk_fold mid i (key_group (e :: r)) spk)
          hL2 hdlen hnext.1 hnext.2 (by simp [hi])
          (by
            show put_all A.entries (key_group (e :: r)) ++ B.entries = _
            rw [hput, hBnil, hAP, List.append_nil])
          (fun _ => hBnil)
          (by
            rw [spk_fold_eq]
            by_cases hlt : mid < i + (key_group (e :: r)).length
            · rw [if_pos ⟨hcase, hlt⟩, get_append_ge _ _ _ (by omega), hi]
            · rw [if_neg (by omega), hspk, List.get?_eq_none.2 (by omega),
                List.get?_eq_none.2 (by simp; omega)])
          (by
            intro x hx
            simp only [hput] at hx
            rcases List.mem_append.1 hx with hx | hx
            · exact hA x hx
            · rw [hgk x hx]
              exact hek)
          hBk hbound2
        refine ⟨A1, B1, ?_, h2, h3, h4⟩
        unfold _leaf_split_outer
        simp only [hv, if_true, hcase, hin]
        exact h1
      · obtain ⟨it1, hin, hr1, hs1⟩ :=
          leaf_split_inner_run mid (key_group (e :: r)) n it i B spk hglen (by rw [hsame])
        have hput : put_all B.entries (key_group (e :: r)) = B.entries ++ key_group (e :: r) := by
          apply put_all_append
          rw [hL2, ← hAB, List.append_assoc, List.append_assoc, List.pairwise_append] at hs
          have h2 := hs.2.1
          rw [← List.append_assoc, List.pairwise_append] at h2
          exact h2.1
        have hnext := msgbuf_iter_next_rest it1 e r (by rw [hr1, hrest])
        have hemP : em ∈ P := by
          have h1 : (P ++ (e :: r)).get? mid = some em := by rw [← hL]; exact hm
          rw [get_append_lt _ _ _ (by omega)] at h1
          exact List.get?_mem h1
        obtain ⟨A1, B1, h1, h2, h3, h4⟩ := ih (P ++ key_group (e :: r))
          (r.dropWhile (same_key e.key)) (msgbuf_iter_next it1) (i + (key_group (e :: r)).length)
          A ⟨put_all B.entries (key_group (e :: r))⟩ (spk_fold mid i (key_group (e :: r)) spk)
          hL2 hdlen hnext.1 hnext.2 (by simp [hi])
          (by
            show A.entries ++ put_all B.entries (key_group (e :: r)) = _
            rw [hput, ← hAB, List.append_assoc])
          (fun h => by omega)
          (by
            rw [spk_fold_eq, if_neg (by omega), hspk, get_append_lt _ _ _ (by omega)])
          hA
          (by
            intro x hx
            simp only [hput] at hx
            rcases List.mem_append.1 hx with hx | hx
            · exact hBk x hx
            · refine hbound em hemP x ?_
              rw [← hR]
              exact List.mem_append_left _ hx)
          hbound2
        refine ⟨A1, B1, ?_, h2, h3, h4⟩
        unfold _leaf_split_outer
        simp only [hv, if_true, hcase, if_false, hin]
        exact h1

lemma cache_create_ok (X : collab msg) (t : tree msg) (height children : Nat)
    (h : X.NID_START ≤ (t.hdr.last_nid + 1) % UINT64_MOD) :
    cache_create_node_and_pin X t height children =
      .ok ({ t with hdr := { t.hdr with last_nid := (t.hdr.last_nid + 1) % UINT64_MOD } },
           { nid := (t.hdr.last_nid + 1) % UINT64_MOD, height := height, isroot := 0,
             dirty := 0, msn := 0, l_buffer := none, n_children := children,
             pivots := fun _ => default,
             parts := fun _ => { child_nid := 0, buffer := none } }) := by
  simp [cache_create_node_and_pin, hdr_next_nid, h]

/-- The two loops of `_leaf_split` on the buffer of a leaf: with the fuel
`_leaf_split` hands them they return; buffer A followed by buffer B is the old
buffer, the split key is the key of the entry counted `mid` (none for an empty
buffer), the keys in A are at most the split key, the keys in B greater. -/
lemma leaf_split_loops (old : msgbuf msg) (hwf : old.wf) :
    ∃ A B : msgbuf msg,
      _leaf_split_outer (old.count / 2) (old.count + 1) (old.count + 1)
          (msgbuf_iter_seektofirst (msgbuf_iter_init old)) 0 msgbuf_new msgbuf_new none =
        .ok (A, B, (old.entries.get? (old.count / 2)).map (fun e => e.key)) ∧
      A.entries ++ B.entries = old.entries ∧
      (∀ em, old.entries.get? (old.count / 2) = some em →
        (∀ x ∈ A.entries, x.key ≤ em.key) ∧ (∀ x ∈ B.entries, em.key < x.key)) := by
  have hseek := msgbuf_iter_seek_rest old.entries (msgbuf_iter_init old)
  cases hget : old.entries.get? (old.count / 2) with
  | none =>
    have hlen : old.entries.length ≤ old.entries.length / 2 := List.get?_eq_none.1 hget
    have hnil : old.entries = [] := by
      apply List.eq_nil_of_length_eq_zero
      omega
    refine ⟨msgbuf_new, msgbuf_new, ?_, by simp [msgbuf_new, hnil], ?_⟩
    · have hv : msgbuf_iter_valid (msgbuf_iter_seektofirst (msgbuf_iter_init old)) = false := by
        simp [msgbuf_iter_valid, msgbuf_iter_seektofirst, msgbuf_iter_init, hnil,
          msgbuf_iter_seek]
      unfold _leaf_split_outer
      simp [hv]
    · intro em hem
      cases hem
  | some em =>
    obtain ⟨A, B, h1, h2, h3, h4⟩ := leaf_split_outer_run old.entries (old.count / 2)
      (old.count + 1) em hget hwf (by simp [msgbuf.count]) (old.count + 1) [] old.entries
      (msgbuf_iter_seektofirst (msgbuf_iter_init old)) 0 msgbuf_new msgbuf_new none
      (by simp) (by simp [msgbuf.count]) hseek.1 hseek.2 rfl (by simp [msgbuf_new])
      (fun _ => rfl) (by simp) (by simp [msgbuf_new]) (by simp [msgbuf_new]) (by simp)
    refine ⟨A, B, h1, h2, ?_⟩
    intro em2 hem2
    cases hem2
    exact ⟨h3, h4⟩

/-- `_leaf_split` on a leaf with a well-formed buffer, when the NID counter passes
its assertion: it returns; node `a` is the leaf with buffer A, node `b` the node
the cache created with buffer B, both dirty. -/
lemma leaf_split_run (X : collab msg) (t : tree msg) (leaf : node msg) (old : msgbuf msg)
    (hbuf : leaf.l_buffer = some old) (hwf : old.wf)
    (hnid : X.NID_START ≤ (t.hdr.last_nid + 1) % UINT64_MOD) :
    ∃ (A B : msgbuf msg) (t1 : tree msg) (b0 : node msg),
      cache_create_node_and_pin X t 0 0 = .ok (t1, b0) ∧
      _leaf_split X t leaf =
        .ok ({ t1 with status := { t1.status with
                tree_leaf_split_nums := t1.status.tree_leaf_split_nums + 1 } },
             node_set_dirty { leaf with l_buffer := some A },
             node_set_dirty { b0 with l_buffer := some B },
             (old.entries.get? (old.count / 2)).map (fun e => e.key)) ∧
      A.entries ++ B.entries = old.entries ∧
      (∀ em, old.entries.get? (old.count / 2) = some em →
        (∀ x ∈ A.entries, x.key ≤ em.key) ∧ (∀ x ∈ B.entries, em.key < x.key)) := by
  obtain ⟨A, B, h1, h2, h3⟩ := leaf_split_loops old hwf
  have hc := cache_create_ok X t 0 0 hnid
  refine ⟨A, B, _, _, hc, ?_, h2, h3⟩
  unfold _leaf_split
  simp only [hbuf, h1, hc]

/-- C6. For a leaf with a well-formed buffer, `_leaf_split` returns and places
every entry of the old buffer into exactly one of the new buffers A and B,
without loss or duplication and in iteration order: A followed by B is the old
entry sequence and `|A| + |B| = |old|`. The original leaf is reused as node `a`
(same NID and fields, buffer A), node `b` is a fresh leaf of height 0 under a
newly allocated NID with buffer B; both are dirty. -/
theorem leaf_split_conservation (X : collab msg) (t : tree msg) (leaf : node msg)
    (old : msgbuf msg) (hbuf : leaf.l_buffer = some old) (hwf : old.wf)
    (hnid : X.NID_START ≤ (t.hdr.last_nid + 1) % UINT64_MOD) :
    ∃ (t1 : tree msg) (a b : node msg) (spk : Option msg) (A B : msgbuf msg),
      _leaf_split X t leaf = .ok (t1, a, b, spk) ∧
      a = node_set_dirty { leaf with l_buffer := some A } ∧
      b.l_buffer = some B ∧
      A.entries ++ B.entries = old.entries ∧
      A.count + B.count = old.count ∧
      a.nid = leaf.nid ∧ a.dirty = 1 ∧
      b.nid = (t.hdr.last_nid + 1) % UINT64_MOD ∧ b.height = 0 ∧ b.dirty = 1 := by
  obtain ⟨A, B, t1, b0, hc, h1, h2, _⟩ := leaf_split_run X t leaf old hbuf hwf hnid
  rw [cache_create_ok X t 0 0 hnid] at hc
  cases hc
  refine ⟨_, _, _, _, A, B, h1, rfl, rfl, h2, ?_, rfl, rfl, rfl, rfl, rfl⟩
  simp only [msgbuf.count, ← h2, List.length_append]

/-- Witness for C6: the leaf with the keys 1, 2, 3. -/
theorem leaf_split_conservation_witness :
    ∃ (t1 : tree Nat) (a b : node Nat) (spk : Option Nat) (A B : msgbuf Nat),
      _leaf_split demo_collab (demo_tree_at 3) demo_leaf3 = .ok (t1, a, b, spk) ∧
      a = node_set_dirty { demo_leaf3 with l_buffer := some A } ∧
      b.l_buffer = some B ∧
      A.entries ++ B.entries = [demo_entry 1 1, demo_entry 2 2, demo_entry 3 3] ∧
      A.count + B.count = 3 ∧
      a.nid = 4 ∧ a.dirty = 1 ∧ b.nid = 5 ∧ b.height = 0 ∧ b.dirty = 1 :=
  leaf_split_conservation demo_collab (demo_tree_at 3) demo_leaf3
    ⟨[demo_entry 1 1, demo_entry 2 2, demo_entry 3 3]⟩ rfl
    (by unfold msgbuf.wf; decide) (by decide)

/-! ## Interior split -/

lemma copy_from_apply {α : Type} (src : Nat → α) (off : Nat) (n : Nat) :
    ∀ (dst : Nat → α) (i : Nat),
      copy_from src off n dst i = if i < n then src (off + i) else dst i := by
  induction n with
  | zero =>
    intro dst i
    simp [copy_from]
  | succ n ih =>
    intro dst i
    simp only [copy_from]
    by_cases h : i = n
    · subst h
      simp
    · rw [Function.update_noteq h, ih]
      by_cases h2 : i < n
      · rw [if_pos h2, if_pos (by omega)]
      · rw [if_neg h2, if_neg (by omega)]

/-- C7. For an interior node with `pivots_old = n_children - 1 > 2`,
`in_a = pivots_old / 2` and `in_b = pivots_old - in_a`, `_nonleaf_split` returns
(when the NID counter passes its assertion); node `a` is the same node with
`n_children = in_a + 1`, its pivots and partitions below `in_a` unchanged and
`parts[in_a].buffer` a new empty buffer; node `b` is a new node with `in_b + 1`
children, `b.pivots[i] = pivots[in_a + i]` for `i < in_b` and
`b.parts[i] = parts[in_a + i]` (child NID and old buffer) for `i <= in_b`; the
split key is a copy of `pivots[in_a - 1]`; `a` and `b` are dirty. -/
theorem nonleaf_split_shape (X : collab msg) (t : tree msg) (nd : node msg)
    (hp : nd.n_children - 1 > 2)
    (hnid : X.NID_START ≤ (t.hdr.last_nid + 1) % UINT64_MOD) :
    ∃ (t1 : tree msg) (a b : node msg) (k : msg),
      _nonleaf_split X t nd = .ok (t1, a, b, some k) ∧
      a.nid = nd.nid ∧ a.height = nd.height ∧ a.isroot = nd.isroot ∧ a.msn = nd.msn ∧
      a.n_children = pivots_in_a nd + 1 ∧
      (∀ i, i < pivots_in_a nd → a.pivots i = nd.pivots i) ∧
      (∀ i, i < pivots_in_a nd → a.parts i = nd.parts i) ∧
      (a.parts (pivots_in_a nd)).buffer = some msgbuf_new ∧
      b.nid = (t.hdr.last_nid + 1) % UINT64_MOD ∧
      b.n_children = pivots_in_b nd + 1 ∧
      (∀ i, i < pivots_in_b nd → b.pivots i = nd.pivots (pivots_in_a nd + i)) ∧
      (∀ i, i ≤ pivots_in_b nd → b.parts i = nd.parts (pivots_in_a nd + i)) ∧
      k = nd.pivots (pivots_in_a nd - 1) ∧
      a.dirty = 1 ∧ b.dirty = 1 := by
  have hc := cache_create_ok X t 1 (pivots_in_b nd + 1) hnid
  unfold pivots_in_b at hc
  unfold _nonleaf_split
  simp only [hp, if_true, hc]
  refine ⟨_, _, _, _, rfl, rfl, rfl, rfl, rfl, rfl, ?_, ?_, ?_, rfl, rfl, ?_, ?_, rfl, rfl, rfl⟩
  · intro i _
    rfl
  · intro i hi
    simp only [node_set_dirty, pivots_in_a] at hi ⊢
    rw [Function.update_noteq (by omega)]
  · simp [node_set_dirty, pivots_in_a]
  · intro i hi
    simp only [node_set_dirty, pivots_in_a, pivots_in_b] at hi ⊢
    rw [copy_from_apply, if_pos hi]
  · intro i hi
    simp only [node_set_dirty, pivots_in_a, pivots_in_b] at hi ⊢
    rw [copy_from_apply, if_pos (by omega)]

/-- Witness for C7: the interior node with four children. -/
theorem nonleaf_split_shape_witness :
    ∃ (t1 : tree Nat) (a b : node Nat) (k : Nat),
      _nonleaf_split demo_collab demo_tree4 demo_inner4 = .ok (t1, a, b, some k) ∧
      a.nid = demo_inner4.nid ∧ a.height = demo_inner4.height ∧
      a.isroot = demo_inner4.isroot ∧ a.msn = demo_inner4.msn ∧
      a.n_children = pivots_in_a demo_inner4 + 1 ∧
      (∀ i, i < pivots_in_a demo_inner4 → a.pivots i = demo_inner4.pivots i) ∧
      (∀ i, i < pivots_in_a demo_inner4 → a.parts i = demo_inner4.parts i) ∧
      (a.parts (pivots_in_a demo_inner4)).buffer = some msgbuf_new ∧
      b.nid = (demo_tree4.hdr.last_nid + 1) % UINT64_MOD ∧
      b.n_children = pivots_in_b demo_inner4 + 1 ∧
      (∀ i, i < pivots_in_b demo_inner4 →
        b.pivots i = demo_inner4.pivots (pivots_in_a demo_inner4 + i)) ∧
      (∀ i, i ≤ pivots_in_b demo_inner4 →
        b.parts i = demo_inner4.parts (pivots_in_a demo_inner4 + i)) ∧
      k = demo_inner4.pivots (pivots_in_a demo_inner4 - 1) ∧
      a.dirty = 1 ∧ b.dirty = 1 :=
  nonleaf_split_shape demo_collab demo_tree4 demo_inner4 (by decide) (by decide)

/-! ## Adding a pivot to the parent -/

lemma slide_apply {α : Type} (pidx : Nat) (i : Nat) :
    ∀ (a : Nat → α) (j : Nat),
      slide pidx i a j = if pidx < j ∧ j ≤ i then a (j - 1) else a j := by
  induction i with
  | zero =>
    intro a j
    simp only [slide]
    rw [if_neg (by omega)]
  | succ i ih =>
    intro a j
    simp only [slide]
    by_cases hp : pidx < i + 1
    · rw [if_pos hp, ih]
      by_cases h1 : pidx < j ∧ j ≤ i
      · rw [if_pos h1, if_pos (by omega), Function.update_noteq (by omega)]
      · rw [if_neg h1]
        by_cases h2 : j = i + 1
        · subst h2
          rw [if_pos (by omega)]
          simp
        · rw [if_neg (by omega), Function.update_noteq h2]
    · rw [if_neg hp, if_neg (by omega)]

/-- C8. For a parent with `n` children and `child_num < n`, after
`_add_pivot_to_parent(parent, child_num, a, b, split_key)` the parent has `n + 1`
children (hence `n` pivots); `pivots[child_num]` is the split key;
`parts[child_num]` is `a.nid` with a new empty buffer; `parts[child_num + 1]` is
`b.nid` with the buffer that was at `parts[child_num]`; every pivot and
partition below `child_num` is unchanged, every old pivot at an index
`i >= child_num` is now at `i + 1` and every old partition at an index
`i > child_num` is now at `i + 1`; the parent is dirty and keeps its NID. -/
theorem add_pivot_to_parent_spec (t : tree msg) (parent : node msg) (child_num : Nat)
    (a b : node msg) (spk : msg) (h : child_num < parent.n_children) :
    (_add_pivot_to_parent t parent child_num a b spk).2.n_children = parent.n_children + 1 ∧
    (_add_pivot_to_parent t parent child_num a b spk).2.pivots child_num = spk ∧
    (_add_pivot_to_parent t parent child_num a b spk).2.parts child_num =
      { child_nid := a.nid, buffer := some msgbuf_new } ∧
    (_add_pivot_to_parent t parent child_num a b spk).2.parts (child_num + 1) =
      { child_nid := b.nid, buffer := (parent.parts child_num).buffer } ∧
    (∀ i, i < child_num →
      (_add_pivot_to_parent t parent child_num a b spk).2.pivots i = parent.pivots i ∧
      (_add_pivot_to_parent t parent child_num a b spk).2.parts i = parent.parts i) ∧
    (∀ i, child_num ≤ i → i + 1 < parent.n_children →
      (_add_pivot_to_parent t parent child_num a b spk).2.pivots (i + 1) = parent.pivots i) ∧
    (∀ i, child_num < i → i < parent.n_children →
      (_add_pivot_to_parent t parent child_num a b spk).2.parts (i + 1) = parent.parts i) ∧
    (_add_pivot_to_parent t parent child_num a b spk).2.dirty = 1 ∧
    (_add_pivot_to_parent t parent child_num a b spk).2.nid = parent.nid := by
  refine ⟨rfl, ?_, ?_, ?_, ?_, ?_, ?_, rfl, rfl⟩
  · simp only [_add_pivot_to_parent, node_set_dirty]
    rw [Function.update_same]
  · show Function.update (Function.update _ child_num _) (child_num + 1) _ child_num = _
    rw [Function.update_noteq (by omega), Function.update_same]
  · show Function.update (Function.update _ child_num _) (child_num + 1) _ (child_num + 1) = _
    rw [Function.update_same, Function.update_noteq (by omega), slide_apply,
      if_pos (by omega)]
    simp
  · intro i hi
    constructor
    · simp only [_add_pivot_to_parent, node_set_dirty]
      rw [Function.update_noteq (by omega), slide_apply, if_neg (by omega)]
    · show Function.update (Function.update _ child_num _) (child_num + 1) _ i = _
      rw [Function.update_noteq (by omega), Function.update_noteq (by omega), slide_apply,
        if_neg (by omega)]
  · intro i h1 h2
    simp only [_add_pivot_to_parent, node_set_dirty]
    rw [Function.update_noteq (by omega), slide_apply, if_pos (by omega)]
    simp
  · intro i h1 h2
    show Function.update (Function.update _ child_num _) (child_num + 1) _ (i + 1) = _
    rw [Function.update_noteq (by omega), Function.update_noteq (by omega), slide_apply,
      if_pos (by omega)]
    simp

/-- Witness for C8: a new pivot 15 for child 1 of the interior node with four
children. -/
theorem add_pivot_to_parent_spec_witness :
    (_add_pivot_to_parent demo_tree4 demo_inner4 1 (demo_node 6 0) (demo_node 9 0) 15).2.n_children
      = 5 ∧
    (_add_pivot_to_parent demo_tree4 demo_inner4 1 (demo_node 6 0) (demo_node 9 0) 15).2.pivots 1
      = 15 ∧
    (_add_pivot_to_parent demo_tree4 demo_inner4 1 (demo_node 6 0) (demo_node 9 0) 15).2.pivots 2
      = 20 ∧
    ((_add_pivot_to_parent demo_tree4 demo_inner4 1 (demo_node 6 0) (demo_node 9 0) 15).2.parts 2
      ).child_nid = 9 :=
  have h := add_pivot_to_parent_spec demo_tree4 demo_inner4 1 (demo_node 6 0) (demo_node 9 0) 15
    (by decide)
  ⟨h.1, h.2.1, h.2.2.2.2.2.1 1 (le_refl 1) (by decide), by rw [h.2.2.2.1]; rfl⟩

/-! ## Root swap and root split -/

lemma cache_create_frame (X : collab msg) (t t1 : tree msg) (height children : Nat)
    (nd : node msg) (h : cache_create_node_and_pin X t height children = .ok (t1, nd)) :
    t1.hdr.root_nid = t.hdr.root_nid ∧ t1.hdr.height = t.hdr.height ∧
    nd.nid = (t.hdr.last_nid + 1) % UINT64_MOD ∧ nd.height = height ∧
    nd.n_children = children ∧ nd.isroot = 0 := by
  unfold cache_create_node_and_pin hdr_next_nid at h
  simp only at h
  split at h
  · cases h
  · rename_i t2 nid heq
    split at heq
    · cases heq
      cases h
      exact ⟨rfl, rfl, rfl, rfl, rfl, rfl⟩
    · cases heq

/-- Either split keeps `root_nid` and `height` of the header; node `a` is the
split node itself: it keeps NID, height and root flag. -/
lemma node_split_frame (X : collab msg) (t t1 : tree msg) (nd a b : node msg)
    (spk : Option msg)
    (h : (if nd.height = 0 then _leaf_split X t nd else _nonleaf_split X t nd) =
      .ok (t1, a, b, spk)) :
    t1.hdr.root_nid = t.hdr.root_nid ∧ t1.hdr.height = t.hdr.height ∧
    a.nid = nd.nid ∧ a.height = nd.height ∧ a.isroot = nd.isroot ∧
    b.nid = (t.hdr.last_nid + 1) % UINT64_MOD := by
  split at h
  · unfold _leaf_split at h
    split at h
    · cases h
    · simp only at h
      split at h
      · cases h
      · split at h
        · cases h
        · rename_i t2 leafb0 heq
          obtain ⟨h1, h2, h3, _⟩ := cache_create_frame X t t2 0 0 leafb0 heq
          cases h
          exact ⟨h1, h2, rfl, rfl, rfl, h3⟩
  · unfold _nonleaf_split at h
    simp only at h
    split at h
    · split at h
      · cases h
      · rename_i t2 nodeb0 heq
        obtain ⟨h1, h2, h3, _⟩ := cache_create_frame X t t2 _ _ nodeb0 heq
        cases h
        exact ⟨h1, h2, rfl, rfl, rfl, h3⟩
    · cases h

/-- C4. For every root split, `hdr.root_nid` is unchanged; afterwards the new
root carries the NID the old root had before the split and `isroot = 1`, the
old root carries the NID that had been allocated to the new root and
`isroot = 0`. When the old root was the node under `hdr.root_nid` and the NID
allocated to the new root differs from it, exactly the new root of the two
carries `hdr.root_nid`. `_root_swap` alone exchanges the two NIDs and flips the
two flags without touching the header. -/
theorem root_split_keeps_root_identity (X : collab msg) (t t1 : tree msg)
    (new_root old_root nr or1 : node msg)
    (hroot : old_root.nid = t.hdr.root_nid) (hfresh : new_root.nid ≠ old_root.nid)
    (h : _root_split X t new_root old_root = .ok (t1, nr, or1)) :
    t1.hdr.root_nid = t.hdr.root_nid ∧
    nr.nid = old_root.nid ∧ nr.isroot = 1 ∧
    or1.nid = new_root.nid ∧ or1.isroot = 0 ∧
    nr.nid = t1.hdr.root_nid ∧ or1.nid ≠ t1.hdr.root_nid ∧
    (_root_swap t new_root old_root).1.hdr = t.hdr ∧
    (_root_swap t new_root old_root).2.1.nid = old_root.nid ∧
    (_root_swap t new_root old_root).2.1.isroot = 1 ∧
    (_root_swap t new_root old_root).2.2.nid = new_root.nid ∧
    (_root_swap t new_root old_root).2.2.isroot = 0 := by
  unfold _root_split at h
  split at h
  · cases h
  · cases h
  · rename_i t2 a b k heq
    obtain ⟨h1, _, h3, _, _, _⟩ := node_split_frame X t t2 old_root a b (some k) heq
    simp only [_root_swap] at h
    cases h
    refine ⟨h1, h3, rfl, rfl, rfl, ?_, ?_, rfl, rfl, rfl, rfl, rfl⟩
    · show a.nid = t2.hdr.root_nid
      rw [h3, h1, hroot]
    · show new_root.nid ≠ t2.hdr.root_nid
      rw [h1, ← hroot]
      exact hfresh

/-- Witness for C4: the root split of the leaf root with the keys 1, 2, 3. -/
theorem root_split_keeps_root_identity_witness :
    ∃ (t1 : tree Nat) (nr or1 : node Nat),
      _root_split demo_collab demo_tree_split demo_new_root demo_leaf3 = .ok (t1, nr, or1) ∧
      t1.hdr.root_nid = demo_tree_split.hdr.root_nid ∧
      nr.nid = demo_leaf3.nid ∧ nr.isroot = 1 ∧
      or1.nid = demo_new_root.nid ∧ or1.isroot = 0 ∧
      nr.nid = t1.hdr.root_nid ∧ or1.nid ≠ t1.hdr.root_nid := by
  have key := fun (t1 : tree Nat) (nr or1 : node Nat)
      (h : _root_split demo_collab demo_tree_split demo_new_root demo_leaf3 = .ok (t1, nr, or1)) =>
    root_split_keeps_root_identity demo_collab demo_tree_split t1 demo_new_root demo_leaf3 nr or1
      rfl (by decide) h
  refine ⟨_, _, _, rfl, ?_⟩
  have h := key _ _ _ rfl
  exact ⟨h.1, h.2.1, h.2.2.1, h.2.2.2.1, h.2.2.2.2.1, h.2.2.2.2.2.1, h.2.2.2.2.2.2.1⟩

/-- C9. For every root split whose split of the old root yields nodes `a`, `b`
and a split key, `_root_split(new_root, old_root)` returns; the new root has
`pivots[0]` equal to that split key, `parts[0].child_nid` equal to the NID node
`a` (the demoted former root) carries after the swap, which is the NID that had
been allocated to the new root and so differs from `hdr.root_nid`,
`parts[1].child_nid` equal to `b.nid`, both partition buffers new and empty, and
`hdr.height` is one more than before. -/
theorem root_split_installs_children (X : collab msg) (t t0 : tree msg)
    (new_root old_root a b : node msg) (k : msg)
    (hsplit : (if old_root.height = 0 then _leaf_split X t old_root
               else _nonleaf_split X t old_root) = .ok (t0, a, b, some k)) :
    ∃ (t1 : tree msg) (nr or1 : node msg),
      _root_split X t new_root old_root = .ok (t1, nr, or1) ∧
      nr.pivots 0 = k ∧
      (nr.parts 0).child_nid = or1.nid ∧ or1.nid = new_root.nid ∧
      (nr.parts 0).buffer = some msgbuf_new ∧
      (nr.parts 1).child_nid = b.nid ∧
      (nr.parts 1).buffer = some msgbuf_new ∧
      t1.hdr.height = t.hdr.height + 1 ∧
      (old_root.nid = t.hdr.root_nid → new_root.nid ≠ old_root.nid →
        (nr.parts 0).child_nid ≠ t1.hdr.root_nid) := by
  obtain ⟨h1, h2, _, _, _, _⟩ := node_split_frame X t t0 old_root a b (some k) hsplit
  unfold _root_split
  rw [hsplit]
  simp only [_root_swap]
  refine ⟨_, _, _, rfl, ?_, ?_, rfl, ?_, ?_, ?_, ?_, ?_⟩
  · simp [node_set_dirty]
  · simp [node_set_dirty]
  · simp [node_set_dirty]
  · simp [node_set_dirty]
  · simp [node_set_dirty]
  · show t0.hdr.height + 1 = t.hdr.height + 1
    rw [h2]
  · intro hroot hfresh
    simp only [node_set_dirty]
    rw [Function.update_noteq (by decide), Function.update_same]
    show new_root.nid ≠ t0.hdr.root_nid
    rw [h1, ← hroot]
    exact hfresh

/-- Witness for C9: the root split of the leaf root with the keys 1, 2, 3 installs
the pivot 2 and the children 5 (the former root) and 6 (the new leaf). -/
theorem root_split_installs_children_witness :
    ∃ (t1 : tree Nat) (nr or1 : node Nat),
      _root_split demo_collab demo_tree_split demo_new_root demo_leaf3 = .ok (t1, nr, or1) ∧
      nr.pivots 0 = 2 ∧
      (nr.parts 0).child_nid = or1.nid ∧ or1.nid = demo_new_root.nid ∧
      (nr.parts 0).buffer = some msgbuf_new ∧
      (nr.parts 1).child_nid = 6 ∧
      (nr.parts 1).buffer = some msgbuf_new ∧
      t1.hdr.height = demo_tree_split.hdr.height + 1 ∧
      (demo_leaf3.nid = demo_tree_split.hdr.root_nid → demo_new_root.nid ≠ demo_leaf3.nid →
        (nr.parts 0).child_nid ≠ t1.hdr.root_nid) :=
  root_split_installs_children demo_collab demo_tree_split _ demo_new_root demo_leaf3
    (node_set_dirty { demo_leaf3 with l_buffer := some ⟨[demo_entry 1 1, demo_entry 2 2]⟩ })
    (node_set_dirty { demo_node 6 0 with l_buffer := some ⟨[demo_entry 3 3]⟩ }) 2 rfl

/-! ## The new root of a root split -/

/-- C10 (amended). Whenever `root_put_cmd` splits a Fissible root (held with
`L_WRITE`), the new root node is created with height 1 and `n_children = 2`,
whatever the height of the old root; this is `old_root.height + 1` exactly when
the old root is a leaf. The header height, not the node height, is raised by
one. The new root is in the cache under its NID afterwards, unless the cache
evicts it at its unpin (the third unpin of the step). The retry loop goes on
with the tree this step returns. -/
theorem root_put_cmd_split_new_root (X : collab msg) (t t1 : tree msg) (root nr : node msg)
    (h : root_put_cmd_split X t root = .ok (t1, nr)) :
    nr.height = 1 ∧ nr.n_children = 2 ∧ nr.isroot = 1 ∧
    (nr.height = root.height + 1 ↔ root.height = 0) ∧
    t1.hdr.height = t.hdr.height + 1 ∧
    (t.cf.evict.get? 2 ≠ some true → t1.cf.nodes nr.nid = some nr) ∧
    (∀ (n f : Nat) (st : Int), st ≠ 0 →
      cache_get_and_pin X t t.hdr.root_nid lock_type.L_WRITE = (st, some root) →
      _get_reactivity X t root = reactivity.FISSIBLE →
      root_put_loop X n (f + 1) t lock_type.L_WRITE =
        root_put_loop X n f t1 lock_type.L_READ) := by
  have hloop : ∀ (n f : Nat) (st : Int), st ≠ 0 →
      cache_get_and_pin X t t.hdr.root_nid lock_type.L_WRITE = (st, some root) →
      _get_reactivity X t root = reactivity.FISSIBLE →
      root_put_loop X n (f + 1) t lock_type.L_WRITE =
        root_put_loop X n f t1 lock_type.L_READ := by
    intro n f st hst hpin hre
    rw [root_put_loop, hpin]
    simp only [hst, if_false, hre, h]
    rfl
  unfold root_put_cmd_split at h
  simp only at h
  split at h
  · cases h
  · rename_i t2 new_root hcreate
    obtain ⟨_, hh, _, hnh, hnc, _⟩ := cache_create_frame X t t2 1 2 new_root hcreate
    split at h
    · cases h
    · rename_i t3 nr1 r1 hsplit
      unfold _root_split at hsplit
      split at hsplit
      · cases hsplit
      · cases hsplit
      · rename_i t4 a b k heq
        obtain ⟨_, h2, _, _, _, _⟩ := node_split_frame X t2 t4 root a b (some k) heq
        have hcf : t4.cf = t.cf :=
          (node_split_cf X t2 t4 root a b (some k) heq).trans
            (cache_create_cf X t t2 1 2 new_root hcreate)
        simp only [_root_swap] at hsplit
        cases hsplit
        cases h
        refine ⟨hnh, hnc, rfl, ?_, ?_, ?_, hloop⟩
        · show new_root.height = root.height + 1 ↔ root.height = 0
          rw [hnh]
          omega
        · show t4.hdr.height + 1 = t.hdr.height + 1
          rw [h2, hh]
        · intro hne
          have hne2 : ¬ t.cf.evict.tail.tail.head? = some true := by simpa using hne
          simp only [cache_unpin, cache_cpair_value_swap, hcf, Function.update_same]
          rw [if_neg hne2]

/-- Counterexample to C10 as stated: the root of `demo_tree4` is an interior node
of height 1 with four children and is Fissible at fanout 4; the new root that
the split creates has height 1, not `old_root.height + 1 = 2`. -/
theorem root_put_cmd_split_interior_root_height :
    ∃ (t1 : tree Nat) (nr : node Nat),
      root_put_cmd_split demo_collab demo_tree4 { demo_inner4 with isroot := 1 } = .ok (t1, nr) ∧
      _get_reactivity demo_collab demo_tree4 { demo_inner4 with isroot := 1 } =
        reactivity.FISSIBLE ∧
      ({ demo_inner4 with isroot := 1 } : node Nat).height = 1 ∧
      nr.height = 1 ∧ nr.n_children = 2 ∧
      nr.height ≠ ({ demo_inner4 with isroot := 1 } : node Nat).height + 1 ∧
      t1.hdr.height = 2 :=
  ⟨_, _, rfl, by decide, rfl, rfl, rfl, by decide, rfl⟩

/-- Witness for C10 (amended): the split of the leaf root with the keys 1, 2, 3. -/
theorem root_put_cmd_split_new_root_witness :
    ∃ (t1 : tree Nat) (nr : node Nat),
      root_put_cmd_split demo_collab (demo_tree_at 3) demo_leaf3 = .ok (t1, nr) ∧
      nr.height = 1 ∧ nr.n_children = 2 ∧ nr.isroot = 1 ∧
      (nr.height = demo_leaf3.height + 1 ↔ demo_leaf3.height = 0) ∧
      t1.hdr.height = (demo_tree_at 3).hdr.height + 1 ∧
      t1.cf.nodes nr.nid = some nr := by
  have key := fun (t1 : tree Nat) (nr : node Nat)
      (h : root_put_cmd_split demo_collab (demo_tree_at 3) demo_leaf3 = .ok (t1, nr)) =>
    root_put_cmd_split_new_root demo_collab (demo_tree_at 3) t1 demo_leaf3 nr h
  refine ⟨_, _, rfl, ?_⟩
  have h := key _ _ rfl
  exact ⟨h.1, h.2.1, h.2.2.1, h.2.2.2.1, h.2.2.2.2.1, h.2.2.2.2.2.1 (by decide)⟩

/-! ## Well-formed buffers -/

lemma msgentry_le_trans (a b c : msgentry msg) (h1 : msgentry_le a b) (h2 : msgentry_le b c) :
    msgentry_le a c := by
  unfold msgentry_le at *
  rcases h1 with h1 | ⟨h1, h1m⟩
  · rcases h2 with h2 | ⟨h2, _⟩
    · exact Or.inl (lt_trans h1 h2)
    · exact Or.inl (h2 ▸ h1)
  · rcases h2 with h2 | ⟨h2, h2m⟩
    · exact Or.inl (h1 ▸ h2)
    · exact Or.inr ⟨h1.trans h2, le_trans h1m h2m⟩

lemma msgentry_le_of_not_lt (a b : msgentry msg) (h : ¬ msgentry_lt a b) : msgentry_le b a := by
  unfold msgentry_lt at h
  unfold msgentry_le
  push_neg at h
  obtain ⟨h1, h2⟩ := h
  rcases lt_or_eq_of_le h1 with h3 | h3
  · exact Or.inl h3
  · exact Or.inr ⟨h3, by have := h2 h3.symm; omega⟩

lemma msgentry_le_of_lt (a b : msgentry msg) (h : msgentry_lt a b) : msgentry_le a b := by
  unfold msgentry_lt at h
  unfold msgentry_le
  rcases h with h | ⟨h1, h2⟩
  · exact Or.inl h
  · exact Or.inr ⟨h1, le_of_lt h2⟩

lemma mem_msgbuf_insert (e x : msgentry msg) (l : List (msgentry msg)) :
    x ∈ msgbuf_insert e l ↔ x = e ∨ x ∈ l := by
  induction l with
  | nil => simp [msgbuf_insert]
  | cons b l ih =>
    unfold msgbuf_insert
    split
    · simp
    · simp only [List.mem_cons, ih]
      tauto

/-- `msgbuf_put` keeps a buffer well formed, and `msgbuf_new` is well formed:
every buffer built from `msgbuf_new` by `msgbuf_put` is in iteration order. -/
lemma msgbuf_insert_pairwise (e : msgentry msg) (l : List (msgentry msg))
    (h : l.Pairwise msgentry_le) : (msgbuf_insert e l).Pairwise msgentry_le := by
  induction l with
  | nil => simp [msgbuf_insert]
  | cons b l ih =>
    obtain ⟨hb, hl⟩ := List.pairwise_cons.1 h
    unfold msgbuf_insert
    split
    · rename_i hlt
      refine List.pairwise_cons.2 ⟨?_, h⟩
      intro x hx
      rcases List.mem_cons.1 hx with hx | hx
      · rw [hx]
        exact msgentry_le_of_lt e b hlt
      · exact msgentry_le_trans e b x (msgentry_le_of_lt e b hlt) (hb x hx)
    · rename_i hlt
      refine List.pairwise_cons.2 ⟨?_, ih hl⟩
      intro x hx
      rcases (mem_msgbuf_insert e x l).1 hx with hx | hx
      · rw [hx]
        exact msgentry_le_of_not_lt e b hlt
      · exact hb x hx

/-- `msgbuf_new` is well formed and `msgbuf_put` keeps a buffer well formed:
every buffer built from `msgbuf_new` by `msgbuf_put` is in iteration order. -/
lemma msgbuf_put_wf (mb : msgbuf msg) (msn : Nat) (type : msgtype_t) (key val : msg)
    (xidpair : txnid_pair) (h : mb.wf) :
    (msgbuf_put mb msn type key val xidpair).wf ∧ (msgbuf_new : msgbuf msg).wf :=
  ⟨msgbuf_insert_pairwise _ _ h, List.Pairwise.nil⟩

/-! ## The drain loop when no entry has been seen -/

lemma flush_drain_step (X : collab msg) (msn f : Nat) (t : tree msg) (child : node msg)
    (iter : msgbuf_iter msg) (hv : msgbuf_iter_valid iter = true) (hm : ¬ (msn ≥ iter.cur.msn)) :
    _flush_drain X msn (f + 1) t child iter =
      (match _node_put_cmd X t child (cmd_of_entry iter.cur) with
        | .error g => .error g
        | .ok (t1, child1) => _flush_drain X msn f t1 child1 (msgbuf_iter_next iter)) := by
  rw [_flush_drain]
  simp only [hv, if_true, hm, if_false]
  rfl

/-- When the buffered entries have pairwise distinct keys and every MSN is above
the snapshot, the drain loop returns and has applied exactly the buffered
entries to the child, each once, in iteration order. -/
lemma flush_drain_applies_all (X : collab msg) (msn : Nat) (L : List (msgentry msg)) :
    ∀ (f : Nat) (t : tree msg) (child : node msg) (iter : msgbuf_iter msg),
      L.length < f → iter.rest = L → (∀ e r, L = e :: r → iter.cur = e) →
      L.Chain' (fun a b => a.key ≠ b.key) → (∀ e ∈ L, msn < e.msn) →
      _flush_drain X msn f t child iter = apply_entries X t child L := by
  induction L with
  | nil =>
    intro f t child iter hf hrest _ _ _
    cases f with
    | zero => simp at hf
    | succ f =>
      have hv : msgbuf_iter_valid iter = false := by simp [msgbuf_iter_valid, hrest]
      simp [_flush_drain, hv, apply_entries]
  | cons e r ih =>
    intro f t child iter hf hrest hcur hchain hmsn
    cases f with
    | zero => simp at hf
    | succ f =>
      have hv : msgbuf_iter_valid iter = true := by simp [msgbuf_iter_valid, hrest]
      have hc : iter.cur = e := hcur e r rfl
      have hm : ¬ (msn ≥ iter.cur.msn) := by
        rw [hc]
        exact not_le.2 (hmsn e (List.mem_cons_self e r))
      have hdrop : r.dropWhile (same_key e.key) = r := by
        cases r with
        | nil => rfl
        | cons e2 r2 =>
          have hne : e.key ≠ e2.key := (List.chain'_cons.1 hchain).1
          simp [List.dropWhile, same_key, Ne.symm hne]
      have hnext : (msgbuf_iter_next iter).rest = r ∧
          ∀ e2 r2, r = e2 :: r2 → (msgbuf_iter_next iter).cur = e2 := by
        unfold msgbuf_iter_next
        rw [hrest]
        simp only [hdrop]
        constructor
        · exact (msgbuf_iter_seek_rest r iter).1
        · intro e2 r2 h2
          rw [h2]
          rfl
      rw [flush_drain_step X msn f t child iter hv hm, hc]
      unfold apply_entries
      cases hput : _node_put_cmd X t child (cmd_of_entry e) with
      | error g => rfl
      | ok p =>
        obtain ⟨t1, child1⟩ := p
        simp only
        exact ih f t1 child1 (msgbuf_iter_next iter)
          (by simp only [List.length_cons] at hf; omega) hnext.1 hnext.2
          (List.Chain'.tail hchain)
          (fun x hx => hmsn x (List.mem_cons_of_mem e hx))

/-! ## The splits return -/

/-- The split of a node returns with a split key when the NID counter passes its
assertion and the node is a leaf with a non-empty well-formed buffer or an
interior node with more than three children. -/
lemma node_split_returns (X : collab msg) (t : tree msg) (nd : node msg)
    (hnid : X.NID_START ≤ (t.hdr.last_nid + 1) % UINT64_MOD)
    (hleaf : nd.height = 0 → ∃ old, nd.l_buffer = some old ∧ old.wf ∧ old.entries ≠ [])
    (hinner : nd.height ≠ 0 → nd.n_children - 1 > 2) :
    ∃ (t1 : tree msg) (a b : node msg) (k : msg),
      (if nd.height = 0 then _leaf_split X t nd else _nonleaf_split X t nd) =
        .ok (t1, a, b, some k) := by
  by_cases hh : nd.height = 0
  · obtain ⟨old, hbuf, hwf, hne⟩ := hleaf hh
    obtain ⟨A, B, t1, b0, _, h1, _, _⟩ := leaf_split_run X t nd old hbuf hwf hnid
    have hlen : old.count / 2 < old.entries.length := by
      have : 0 < old.entries.length := List.length_pos.2 hne
      simp only [msgbuf.count]
      omega
    rw [List.get?_eq_get hlen] at h1
    rw [if_pos hh]
    exact ⟨_, _, _, _, h1⟩
  · rw [if_neg hh]
    have hc := cache_create_ok X t 1 (pivots_in_b nd + 1) hnid
    unfold pivots_in_b at hc
    unfold _nonleaf_split
    simp only [hinner hh, if_true, hc]
    exact ⟨_, _, _, _, rfl⟩

/-- `_root_split` returns whenever the split of the old root returns with a split
key. -/
lemma root_split_returns (X : collab msg) (t t0 : tree msg) (new_root old_root a b : node msg)
    (k : msg)
    (hsplit : (if old_root.height = 0 then _leaf_split X t old_root
               else _nonleaf_split X t old_root) = .ok (t0, a, b, some k)) :
    ∃ (t1 : tree msg) (nr or1 : node msg),
      _root_split X t new_root old_root = .ok (t1, nr, or1) := by
  unfold _root_split
  rw [hsplit]
  exact ⟨_, _, _, rfl⟩

/-- The split step of `root_put_cmd` returns when the NID counter passes its
assertion twice (for the new root and for node `b`) and the root is a leaf with
a non-empty well-formed buffer or an interior node with more than three
children. -/
lemma root_put_cmd_split_returns (X : collab msg) (t : tree msg) (root : node msg)
    (hnid1 : X.NID_START ≤ (t.hdr.last_nid + 1) % UINT64_MOD)
    (hnid2 : X.NID_START ≤ ((t.hdr.last_nid + 1) % UINT64_MOD + 1) % UINT64_MOD)
    (hleaf : root.height = 0 → ∃ old, root.l_buffer = some old ∧ old.wf ∧ old.entries ≠ [])
    (hinner : root.height ≠ 0 → root.n_children - 1 > 2) :
    ∃ (t1 : tree msg) (nr : node msg), root_put_cmd_split X t root = .ok (t1, nr) := by
  have hc := cache_create_ok X t 1 2 hnid1
  obtain ⟨t0, a, b, k, hsplit⟩ := node_split_returns X
    { t with hdr := { t.hdr with last_nid := (t.hdr.last_nid + 1) % UINT64_MOD } } root
    hnid2 hleaf hinner
  obtain ⟨t1, nr, or1, hrs⟩ := root_split_returns X _ t0
    { nid := (t.hdr.last_nid + 1) % UINT64_MOD, height := 1, isroot := 0,
      dirty := 0, msn := 0, l_buffer := none, n_children := 2,
      pivots := fun _ => default,
      parts := fun _ => { child_nid := 0, buffer := none } } root a b k hsplit
  unfold root_put_cmd_split
  simp only [hc, hrs]
  exact ⟨_, _, rfl⟩

/-! ## The loops of `_leaf_split` never use up their fuel -/

/-- The outer loop of `_leaf_split` returns for every buffer, well formed or not,
when the fuel of both loops exceeds the number of entries left. -/
lemma leaf_split_outer_returns (mid n : Nat) :
    ∀ (f : Nat) (R : List (msgentry msg)) (it : msgbuf_iter msg) (i : Nat)
      (A B : msgbuf msg) (spk : Option msg),
      R.length < f → R.length < n → it.rest = R → it.same = key_group R →
      ∃ res, _leaf_split_outer mid n f it i A B spk = .ok res := by
  intro f
  induction f with
  | zero =>
    intro R it i A B spk hf
    omega
  | succ f ih =>
    intro R it i A B spk hf hn hrest hsame
    cases R with
    | nil =>
      have hv : msgbuf_iter_valid it = false := by simp [msgbuf_iter_valid, hrest]
      unfold _leaf_split_outer
      simp only [hv, Bool.false_eq_true, if_false]
      exact ⟨_, rfl⟩
    | cons e r =>
      have hv : msgbuf_iter_valid it = true := by simp [msgbuf_iter_valid, hrest]
      have hglen : (key_group (e :: r)).length < n := by
        have h0 := congrArg List.length (key_group_append e r)
        rw [List.length_append] at h0
        omega
      have hdlen : (r.dropWhile (same_key e.key)).length ≤ r.length :=
        (List.dropWhile_sublist _).length_le
      simp only [List.length_cons] at hf hn
      by_cases hcase : i ≤ mid
      · obtain ⟨it1, hin, hr1, _⟩ :=
          leaf_split_inner_run mid (key_group (e :: r)) n it i A spk hglen (by rw [hsame])
        have hnext := msgbuf_iter_next_rest it1 e r (by rw [hr1, hrest])
        obtain ⟨res, hres⟩ := ih (r.dropWhile (same_key e.key)) (msgbuf_iter_next it1)
          (i + (key_group (e :: r)).length) ⟨put_all A.entries (key_group (e :: r))⟩ B
          (spk_fold mid i (key_group (e :: r)) spk) (by omega) (by omega) hnext.1 hnext.2
        refine ⟨res, ?_⟩
        unfold _leaf_split_outer
        simp only [hv, if_true, hcase, hin]
        exact hres
      · obtain ⟨it1, hin, hr1, _⟩ :=
          leaf_split_inner_run mid (key_group (e :: r)) n it i B spk hglen (by rw [hsame])
        have hnext := msgbuf_iter_next_rest it1 e r (by rw [hr1, hrest])
        obtain ⟨res, hres⟩ := ih (r.dropWhile (same_key e.key)) (msgbuf_iter_next it1)
          (i + (key_group (e :: r)).length) A ⟨put_all B.entries (key_group (e :: r))⟩
          (spk_fold mid i (key_group (e :: r)) spk) (by omega) (by omega) hnext.1 hnext.2
        refine ⟨res, ?_⟩
        unfold _leaf_split_outer
        simp only [hv, if_true, hcase, if_false, hin]
        exact hres

/-- `_leaf_split` never ends with `fault.nofuel`: on a leaf with a buffer its two
loops return with the fuel they are given. -/
lemma leaf_split_loops_return (old : msgbuf msg) :
    ∃ res, _leaf_split_outer (old.count / 2) (old.count + 1) (old.count + 1)
      (msgbuf_iter_seektofirst (msgbuf_iter_init old)) 0 msgbuf_new msgbuf_new none = .ok res := by
  have hseek := msgbuf_iter_seek_rest old.entries (msgbuf_iter_init old)
  exact leaf_split_outer_returns (old.count / 2) (old.count + 1) (old.count + 1) old.entries
    (msgbuf_iter_seektofirst (msgbuf_iter_init old)) 0 msgbuf_new msgbuf_new none
    (by simp [msgbuf.count]) (by simp [msgbuf.count]) hseek.1 hseek.2

/-! ## Buffering a command in an interior node -/

/-- `msgbuf_put` adds the entry and keeps every entry the buffer held: the new
content is a permutation of the entry followed by the old content. -/
lemma msgbuf_insert_perm (e : msgentry msg) (l : List (msgentry msg)) :
    (msgbuf_insert e l).Perm (e :: l) := by
  induction l with
  | nil => exact List.Perm.refl _
  | cons b l ih =>
    unfold msgbuf_insert
    split
    · exact List.Perm.refl _
    · exact (List.Perm.cons b ih).trans (List.Perm.swap e b l)

/-- C12. For every node and command such that the partition
`pidx = node_partition_idx(node, cmd.key)` has a buffer (otherwise the code
panics), `nonleaf_put_cmd` returns and puts the command's
`(msn, type, key, val, xidpair)` into the buffer of exactly that partition: the
new buffer holds the new entry next to all old entries (one entry more, and the
entry comes last when no old entry is greater in iteration order); every other
partition, every child NID, the pivots and `n_children` are unchanged, as are
NID, height, root flag and leaf buffer; the node MSN becomes
`max(old msn, cmd.msn)`, so it never decreases; the node is dirty. -/
theorem nonleaf_put_cmd_frame (X : collab msg) (nd : node msg) (cmd : bt_cmd msg)
    (mb : msgbuf msg)
    (hbuf : (nd.parts (X.node_partition_idx nd cmd.key)).buffer = some mb) :
    ∃ nd1 : node msg,
      nonleaf_put_cmd X nd cmd = .ok nd1 ∧
      (nd1.parts (X.node_partition_idx nd cmd.key)).buffer =
        some (msgbuf_put mb cmd.msn cmd.type cmd.key cmd.val cmd.xidpair) ∧
      (msgbuf_put mb cmd.msn cmd.type cmd.key cmd.val cmd.xidpair).entries.Perm
        (⟨cmd.msn, cmd.type, cmd.key, cmd.val, cmd.xidpair⟩ :: mb.entries) ∧
      (msgbuf_put mb cmd.msn cmd.type cmd.key cmd.val cmd.xidpair).count = mb.count + 1 ∧
      ((∀ x ∈ mb.entries, msgentry_le x ⟨cmd.msn, cmd.type, cmd.key, cmd.val, cmd.xidpair⟩) →
        (msgbuf_put mb cmd.msn cmd.type cmd.key cmd.val cmd.xidpair).entries =
          mb.entries ++ [⟨cmd.msn, cmd.type, cmd.key, cmd.val, cmd.xidpair⟩]) ∧
      (∀ i, i ≠ X.node_partition_idx nd cmd.key → nd1.parts i = nd.parts i) ∧
      (∀ i, (nd1.parts i).child_nid = (nd.parts i).child_nid) ∧
      nd1.pivots = nd.pivots ∧ nd1.n_children = nd.n_children ∧
      nd1.nid = nd.nid ∧ nd1.height = nd.height ∧ nd1.isroot = nd.isroot ∧
      nd1.l_buffer = nd.l_buffer ∧
      nd1.msn = max nd.msn cmd.msn ∧ nd.msn ≤ nd1.msn ∧
      nd1.dirty = 1 := by
  have hperm := msgbuf_insert_perm
    (⟨cmd.msn, cmd.type, cmd.key, cmd.val, cmd.xidpair⟩ : msgentry msg) mb.entries
  unfold nonleaf_put_cmd
  simp only [hbuf]
  refine ⟨_, rfl, ?_, hperm, ?_, ?_, ?_, ?_, rfl, rfl, rfl, rfl, rfl, rfl, ?_, ?_, rfl⟩
  · simp [node_set_dirty]
  · have := hperm.length_eq
    simpa [msgbuf.count, msgbuf_put] using this
  · intro h
    exact msgbuf_insert_append _ _ h
  · intro i hi
    simp only [node_set_dirty]
    rw [Function.update_noteq hi]
  · intro i
    simp only [node_set_dirty]
    by_cases hi : i = X.node_partition_idx nd cmd.key
    · subst hi
      rw [Function.update_same]
    · rw [Function.update_noteq hi]
  · simp only [node_set_dirty]
    by_cases h : cmd.msn > nd.msn
    · rw [if_pos h, max_eq_right (le_of_lt h)]
    · rw [if_neg h, max_eq_left (not_lt.1 h)]
  · simp only [node_set_dirty]
    by_cases h : cmd.msn > nd.msn
    · rw [if_pos h]
      exact le_of_lt h
    · rw [if_neg h]

/-- Witness for C12: a command with MSN 3 and key 25 on the interior node with
four children goes to partition 2 (child 7), behind the entry buffered there. -/
theorem nonleaf_put_cmd_frame_witness :
    (demo_inner4.parts (demo_collab.node_partition_idx demo_inner4 25)).buffer =
      some ⟨[demo_entry 2 25]⟩ ∧
    ∃ nd1 : node Nat,
      nonleaf_put_cmd demo_collab demo_inner4
        { msn := 3, type := msgtype_t.MSG_INSERT, key := 25, val := 0,
          xidpair := ⟨0, 0⟩ } = .ok nd1 ∧
      (nd1.parts 2).buffer = some ⟨[demo_entry 2 25, demo_entry 3 25]⟩ ∧
      (∀ i, i ≠ 2 → nd1.parts i = demo_inner4.parts i) ∧
      nd1.pivots = demo_inner4.pivots ∧ nd1.n_children = 4 ∧
      nd1.msn = 3 ∧ nd1.dirty = 1 := by
  refine ⟨rfl, ?_⟩
  obtain ⟨nd1, h1, h2, _, _, _, h6, _, h8, h9, _, _, _, _, h14, _, h16⟩ :=
    nonleaf_put_cmd_frame demo_collab demo_inner4
      { msn := 3, type := msgtype_t.MSG_INSERT, key := 25, val := 0, xidpair := ⟨0, 0⟩ }
      ⟨[demo_entry 2 25]⟩ rfl
  exact ⟨nd1, h1, h2, h6, h8, h9, h14, h16⟩

/-! ## The precondition of the interior split -/

/-- An interior node is FISSIBLE exactly when it has at least
`inner_node_fanout` children. -/
lemma get_reactivity_fissible_inner (X : collab msg) (t : tree msg) (nd : node msg)
    (hh : nd.height ≠ 0) :
    _get_reactivity X t nd = reactivity.FISSIBLE ↔ nd.n_children ≥ t.opts.inner_node_fanout := by
  unfold _get_reactivity
  simp only [hh, if_false]
  by_cases hf : nd.n_children ≥ t.opts.inner_node_fanout
  · simp only [hf, if_true]
  · simp only [hf, if_false, iff_false]
    split <;> simp

/-- `_nonleaf_split` fails its assertion `pivots_old > 2` exactly on the nodes with
fewer than four children. -/
lemma nonleaf_split_assertion (X : collab msg) (t : tree msg) (nd : node msg)
    (h : ¬ (nd.n_children - 1 > 2)) : _nonleaf_split X t nd = .error fault.assertion := by
  unfold _nonleaf_split
  simp only [h, if_false]

/-- C19. The assertion `pivots_old > 2` of `_nonleaf_split` holds for every
interior node that `_get_reactivity` classifies FISSIBLE if and only if
`inner_node_fanout >= 4`. A node that fails it ends `_nonleaf_split` with the
assertion fault, a node that meets it is split (when the NID counter passes its
own assertion). With `inner_node_fanout >= 4` every FISSIBLE interior node has
`n_children - 1 >= 3`, `in_a + 1 >= 2` and `in_b + 1 >= 2`. With
`inner_node_fanout <= 3` some interior node with at least 2 children is FISSIBLE
and fails the assertion (a node with 3 children always is one; a node with 2
children is FISSIBLE exactly when `inner_node_fanout <= 2`). -/
theorem nonleaf_split_assert_iff_fanout (X : collab msg) (t : tree msg) :
    ((∀ nd : node msg, nd.height ≠ 0 → _get_reactivity X t nd = reactivity.FISSIBLE →
        nd.n_children - 1 > 2) ↔ t.opts.inner_node_fanout ≥ 4) ∧
    (∀ nd : node msg, ¬ (nd.n_children - 1 > 2) →
        _nonleaf_split X t nd = .error fault.assertion) ∧
    (∀ nd : node msg, nd.n_children - 1 > 2 →
        X.NID_START ≤ (t.hdr.last_nid + 1) % UINT64_MOD →
        ∃ r, _nonleaf_split X t nd = .ok r) ∧
    (t.opts.inner_node_fanout ≥ 4 → ∀ nd : node msg, nd.height ≠ 0 →
        _get_reactivity X t nd = reactivity.FISSIBLE →
        nd.n_children - 1 ≥ 3 ∧ pivots_in_a nd + 1 ≥ 2 ∧ pivots_in_b nd + 1 ≥ 2) ∧
    (t.opts.inner_node_fanout ≤ 3 → ∃ nd : node msg, nd.height ≠ 0 ∧ nd.n_children = 3 ∧
        nd.n_children ≥ 2 ∧ _get_reactivity X t nd = reactivity.FISSIBLE ∧
        _nonleaf_split X t nd = .error fault.assertion) ∧
    (∀ nd : node msg, nd.height ≠ 0 → nd.n_children = 2 →
        (_get_reactivity X t nd = reactivity.FISSIBLE ↔ t.opts.inner_node_fanout ≤ 2)) := by
  have hex : ∀ c : Nat, ∃ nd : node msg, nd.height ≠ 0 ∧ nd.n_children = c :=
    fun c => ⟨{ nid := 0, height := 1, isroot := 0, dirty := 0, msn := 0, l_buffer := none,
                n_children := c, pivots := fun _ => default,
                parts := fun _ => { child_nid := 0, buffer := none } }, Nat.succ_ne_zero 0, rfl⟩
  refine ⟨⟨?_, ?_⟩, nonleaf_split_assertion X t, ?_, ?_, ?_, ?_⟩
  · intro hall
    by_contra hlt
    obtain ⟨nd, hh, hc⟩ := hex 3
    have hf : _get_reactivity X t nd = reactivity.FISSIBLE :=
      (get_reactivity_fissible_inner X t nd hh).2 (by omega)
    have := hall nd hh hf
    omega
  · intro hfan nd hh hf
    have := (get_reactivity_fissible_inner X t nd hh).1 hf
    omega
  · intro nd hp hnid
    have hc := cache_create_ok X t 1 (pivots_in_b nd + 1) hnid
    unfold pivots_in_b at hc
    unfold _nonleaf_split
    simp only [hp, if_true, hc]
    exact ⟨_, rfl⟩
  · intro hfan nd hh hf
    have := (get_reactivity_fissible_inner X t nd hh).1 hf
    unfold pivots_in_a pivots_in_b
    omega
  · intro hfan
    obtain ⟨nd, hh, hc⟩ := hex 3
    refine ⟨nd, hh, hc, by omega, ?_, ?_⟩
    · exact (get_reactivity_fissible_inner X t nd hh).2 (by omega)
    · exact nonleaf_split_assertion X t nd (by omega)
  · intro nd hh hc
    rw [get_reactivity_fissible_inner X t nd hh, hc]

/-! ## The children of the two halves of an interior split -/

/-- The result of `_nonleaf_split` on a node with more than three children: the
child counts of the two halves and where their partitions come from. -/
lemma nonleaf_split_run (X : collab msg) (t : tree msg) (nd : node msg)
    (hp : nd.n_children - 1 > 2)
    (hnid : X.NID_START ≤ (t.hdr.last_nid + 1) % UINT64_MOD) :
    ∃ (t1 : tree msg) (a b : node msg),
      _nonleaf_split X t nd = .ok (t1, a, b, some (nd.pivots (pivots_in_a nd - 1))) ∧
      a.n_children = pivots_in_a nd + 1 ∧
      b.n_children = pivots_in_b nd + 1 ∧
      (∀ i, (a.parts i).child_nid = (nd.parts i).child_nid) ∧
      (∀ i, i ≠ pivots_in_a nd → a.parts i = nd.parts i) ∧
      (a.parts (pivots_in_a nd)).buffer = some msgbuf_new ∧
      (∀ i, i ≤ pivots_in_b nd → b.parts i = nd.parts (pivots_in_a nd + i)) ∧
      a.pivots = nd.pivots ∧
      (∀ i, i < pivots_in_b nd → b.pivots i = nd.pivots (pivots_in_a nd + i)) := by
  have hc := cache_create_ok X t 1 (pivots_in_b nd + 1) hnid
  unfold pivots_in_b at hc
  unfold _nonleaf_split
  simp only [hp, if_true, hc]
  refine ⟨_, _, _, rfl, rfl, rfl, ?_, ?_, ?_, ?_, rfl, ?_⟩
  · intro i
    simp only [node_set_dirty, pivots_in_a]
    by_cases hi : i = (nd.n_children - 1) / 2
    · subst hi
      rw [Function.update_same]
    · rw [Function.update_noteq hi]
  · intro i hi
    simp only [node_set_dirty, pivots_in_a] at hi ⊢
    rw [Function.update_noteq hi]
  · simp [node_set_dirty, pivots_in_a]
  · intro i hi
    simp only [node_set_dirty, pivots_in_a, pivots_in_b] at hi ⊢
    rw [copy_from_apply, if_pos (by omega)]
  · intro i hi
    simp only [node_set_dirty, pivots_in_a, pivots_in_b] at hi ⊢
    rw [copy_from_apply, if_pos hi]

/-- C20 (amended). For every interior node with pairwise distinct child NIDs and
`pivots_old = n_children - 1 > 2`, `_nonleaf_split` returns (when the NID counter
passes its assertion) and the two halves overlap in one child: A has `in_a + 1`
children, B has `in_b + 1`, so `n_children(A) + n_children(B)` is
`n_children(original) + 1`; A references the children `0 .. in_a` of the
original and B the children `in_a .. n_children - 1`, so every child of the
original is referenced by A or by B; the child at index `in_a` is referenced by
both, by A at its last index with a new empty buffer and by B at index 0 with
the old buffer; every other child is referenced by exactly one half. -/
theorem nonleaf_split_shares_middle_child (X : collab msg) (t : tree msg) (nd : node msg)
    (hp : nd.n_children - 1 > 2)
    (hnid : X.NID_START ≤ (t.hdr.last_nid + 1) % UINT64_MOD)
    (hdist : ∀ i j, i < nd.n_children → j < nd.n_children →
      (nd.parts i).child_nid = (nd.parts j).child_nid → i = j) :
    ∃ (t1 : tree msg) (a b : node msg) (k : msg),
      _nonleaf_split X t nd = .ok (t1, a, b, some k) ∧
      a.n_children = pivots_in_a nd + 1 ∧ b.n_children = pivots_in_b nd + 1 ∧
      a.n_children + b.n_children = nd.n_children + 1 ∧
      (∀ i, i < a.n_children → (a.parts i).child_nid = (nd.parts i).child_nid) ∧
      (∀ i, i < b.n_children →
        (b.parts i).child_nid = (nd.parts (pivots_in_a nd + i)).child_nid) ∧
      (∀ j, j < nd.n_children →
        (∃ i, i < a.n_children ∧ (a.parts i).child_nid = (nd.parts j).child_nid) ∨
        (∃ i, i < b.n_children ∧ (b.parts i).child_nid = (nd.parts j).child_nid)) ∧
      (a.parts (pivots_in_a nd)).child_nid = (b.parts 0).child_nid ∧
      (a.parts (pivots_in_a nd)).buffer = some msgbuf_new ∧
      (b.parts 0).buffer = (nd.parts (pivots_in_a nd)).buffer ∧
      (∀ i j, i < a.n_children → j < b.n_children →
        ((a.parts i).child_nid = (b.parts j).child_nid ↔ i = pivots_in_a nd ∧ j = 0)) := by
  obtain ⟨t1, a, b, h1, ha, hb, hac, _, hbuf, hbp, _, _⟩ := nonleaf_split_run X t nd hp hnid
  have hin : pivots_in_a nd + pivots_in_b nd = nd.n_children - 1 := by
    unfold pivots_in_a pivots_in_b
    omega
  have hb0 : b.parts 0 = nd.parts (pivots_in_a nd) := by
    have := hbp 0 (Nat.zero_le _)
    simpa using this
  refine ⟨t1, a, b, _, h1, ha, hb, by omega, fun i _ => hac i, ?_, ?_, ?_, hbuf, ?_, ?_⟩
  · intro i hi
    rw [hbp i (by omega)]
  · intro j hj
    by_cases hja : j ≤ pivots_in_a nd
    · exact Or.inl ⟨j, by omega, hac j⟩
    · refine Or.inr ⟨j - pivots_in_a nd, by omega, ?_⟩
      rw [hbp _ (by omega)]
      congr 2
      omega
  · rw [hac, hb0]
  · rw [hb0]
  · intro i j hi hj
    rw [hac i, hbp j (by omega)]
    constructor
    · intro heq
      have := hdist i (pivots_in_a nd + j) (by omega) (by omega) heq
      omega
    · rintro ⟨h2, h3⟩
      subst h2 h3
      rfl

/-- Counterexample to C20 as stated: the interior node with the children 5, 6, 7,
8 (pairwise distinct, `pivots_old = 3`) is split into A with the children 5, 6
and B with the children 6, 7, 8: child 6 is referenced by both halves and the
child counts add up to 5, not 4. -/
theorem nonleaf_split_child_in_both_halves :
    ∃ (t1 : tree Nat) (a b : node Nat) (k : Option Nat),
      _nonleaf_split demo_collab demo_tree4 demo_inner4 = .ok (t1, a, b, k) ∧
      demo_inner4.n_children = 4 ∧
      (List.range 4).map (fun i => (demo_inner4.parts i).child_nid) = [5, 6, 7, 8] ∧
      (List.range a.n_children).map (fun i => (a.parts i).child_nid) = [5, 6] ∧
      (List.range b.n_children).map (fun i => (b.parts i).child_nid) = [6, 7, 8] ∧
      a.n_children + b.n_children ≠ demo_inner4.n_children :=
  ⟨_, _, _, _, rfl, rfl, by decide, by decide, by decide, by decide⟩

/-- Witness for C20 (amended): the interior node with the children 5, 6, 7, 8. -/
theorem nonleaf_split_shares_middle_child_witness :
    ∃ (t1 : tree Nat) (a b : node Nat) (k : Nat),
      _nonleaf_split demo_collab demo_tree4 demo_inner4 = .ok (t1, a, b, some k) ∧
      a.n_children = 2 ∧ b.n_children = 3 ∧
      a.n_children + b.n_children = demo_inner4.n_children + 1 ∧
      (a.parts 1).child_nid = (b.parts 0).child_nid ∧
      (a.parts 1).buffer = some msgbuf_new ∧
      (∀ i j, i < a.n_children → j < b.n_children →
        ((a.parts i).child_nid = (b.parts j).child_nid ↔ i = 1 ∧ j = 0)) := by
  obtain ⟨t1, a, b, k, h1, h2, h3, h4, _, _, _, h8, h9, _, h11⟩ :=
    nonleaf_split_shares_middle_child demo_collab demo_tree4 demo_inner4
      (by decide) (by decide)
      (by
        intro i j hi hj h
        have hi4 : i < 4 := hi
        have hj4 : j < 4 := hj
        interval_cases i <;> interval_cases j <;>
          first
          | rfl
          | exact absurd h (by decide))
  exact ⟨t1, a, b, k, h1, h2, h3, h4, h8, h9, h11⟩

/-! ## The sizes of the two halves of a leaf split -/

/-- The drain loop positioned on a list of entries with pairwise different
adjacent keys, one of which has an MSN that is not above the snapshot: for no
amount of fuel does the loop return. -/
lemma flush_drain_never_returns (X : collab msg) (msn : Nat) (L : List (msgentry msg)) :
    ∀ (f : Nat) (t : tree msg) (child : node msg) (iter : msgbuf_iter msg),
      iter.rest = L → (∀ e r, L = e :: r → iter.cur = e) →
      L.Chain' (fun a b => a.key ≠ b.key) → (∃ e ∈ L, e.msn ≤ msn) →
      ∀ res, _flush_drain X msn f t child iter ≠ .ok res := by
  induction L with
  | nil =>
    intro f t child iter _ _ _ hex
    obtain ⟨e, he, _⟩ := hex
    cases he
  | cons e r ih =>
    intro f t child iter hrest hcur hchain hex res
    have hv : msgbuf_iter_valid iter = true := by simp [msgbuf_iter_valid, hrest]
    have hc : iter.cur = e := hcur e r rfl
    by_cases hm : msn ≥ iter.cur.msn
    · rw [flush_drain_spins X msn f t child iter hv hm]
      intro h
      cases h
    · cases f with
      | zero =>
        intro h
        cases h
      | succ f =>
        have hdrop : r.dropWhile (same_key e.key) = r := by
          cases r with
          | nil => rfl
          | cons e2 r2 =>
            have hne : e.key ≠ e2.key := (List.chain'_cons.1 hchain).1
            simp [List.dropWhile, same_key, Ne.symm hne]
        have hnext : (msgbuf_iter_next iter).rest = r ∧
            ∀ e2 r2, r = e2 :: r2 → (msgbuf_iter_next iter).cur = e2 := by
          unfold msgbuf_iter_next
          rw [hrest]
          simp only [hdrop]
          constructor
          · exact (msgbuf_iter_seek_rest r iter).1
          · intro e2 r2 h2
            rw [h2]
            rfl
        have hex2 : ∃ x ∈ r, x.msn ≤ msn := by
          obtain ⟨x, hx, hle⟩ := hex
          rcases List.mem_cons.1 hx with hx | hx
          · rw [hx, ← hc] at hle
            exact absurd hle hm
          · exact ⟨x, hx, hle⟩
        rw [flush_drain_step X msn f t child iter hv hm]
        cases hput : _node_put_cmd X t child (cmd_of_entry iter.cur) with
        | error g =>
          intro h
          cases h
        | ok p =>
          obtain ⟨t1, child1⟩ := p
          exact ih f t1 child1 (msgbuf_iter_next iter) hnext.1 hnext.2
            (List.Chain'.tail hchain) hex2 res

/-- C15 (the code against the claim). The claim has the drain loop of
`_flush_some_child` terminate for every buffer and every `child.msn`, skipping
the entries with `msn <= child.msn`. In the code the skip is a `continue` that
does not advance the iterator: whenever the buffer (keys pairwise distinct)
holds an entry whose MSN is not above the snapshot of `child.msn`, the drain
loop returns for no amount of fuel, whatever the tree and the child; when the
first entry is such an entry, the loop spins on it from the start. -/
theorem flush_drain_diverges_on_seen_entry (X : collab msg) (mb : msgbuf msg) (msn : Nat)
    (hkeys : mb.entries.Pairwise (fun a b => a.key ≠ b.key))
    (hseen : ∃ e ∈ mb.entries, e.msn ≤ msn) :
    (∀ (f : Nat) (t : tree msg) (child : node msg) (res : tree msg × node msg),
      _flush_drain X msn f t child (msgbuf_iter_seektofirst (msgbuf_iter_init mb)) ≠ .ok res) ∧
    ((∃ e, mb.entries.head? = some e ∧ e.msn ≤ msn) →
      ∀ (f : Nat) (t : tree msg) (child : node msg),
        _flush_drain X msn f t child (msgbuf_iter_seektofirst (msgbuf_iter_init mb)) =
          .error fault.nofuel) := by
  have hseek := msgbuf_iter_seek_rest mb.entries (msgbuf_iter_init mb)
  have hcur : ∀ e r, mb.entries = e :: r →
      (msgbuf_iter_seektofirst (msgbuf_iter_init mb)).cur = e := by
    intro e r h
    unfold msgbuf_iter_seektofirst
    simp only [msgbuf_iter_init, h]
    rfl
  constructor
  · intro f t child res
    exact flush_drain_never_returns X msn mb.entries f t child _ hseek.1 hcur
      (List.Pairwise.chain' hkeys) hseen res
  · rintro ⟨e, hhead, hle⟩ f t child
    cases hL : mb.entries with
    | nil =>
      rw [hL] at hhead
      cases hhead
    | cons e0 r =>
      rw [hL] at hhead
      have he : e0 = e := by simpa using hhead
      have hv : msgbuf_iter_valid (msgbuf_iter_seektofirst (msgbuf_iter_init mb)) = true := by
        simp [msgbuf_iter_valid, msgbuf_iter_seektofirst, msgbuf_iter_seek, msgbuf_iter_init, hL]
      exact flush_drain_spins X msn f t child _ hv (by rw [hcur e0 r hL, he]; exact hle)

/-- Witness for C15: the buffer with the entries (MSN 1, key 1) and (MSN 2, key 2)
and the snapshot 1. -/
theorem flush_drain_diverges_on_seen_entry_witness :
    (⟨[demo_entry 1 1, demo_entry 2 2]⟩ : msgbuf Nat).entries.Pairwise
      (fun a b => a.key ≠ b.key) ∧
    (∃ e ∈ (⟨[demo_entry 1 1, demo_entry 2 2]⟩ : msgbuf Nat).entries, e.msn ≤ 1) ∧
    ∀ (f : Nat),
      _flush_drain demo_collab 1 f demo_flush_tree (demo_leaf 5 1 [demo_entry 1 1])
        (msgbuf_iter_seektofirst (msgbuf_iter_init ⟨[demo_entry 1 1, demo_entry 2 2]⟩)) =
        .error fault.nofuel :=
  have hkeys : (⟨[demo_entry 1 1, demo_entry 2 2]⟩ : msgbuf Nat).entries.Pairwise
      (fun a b => a.key ≠ b.key) := by decide
  have hseen : ∃ e ∈ (⟨[demo_entry 1 1, demo_entry 2 2]⟩ : msgbuf Nat).entries, e.msn ≤ 1 :=
    ⟨demo_entry 1 1, by decide, by decide⟩
  ⟨hkeys, hseen, fun f =>
    (flush_drain_diverges_on_seen_entry demo_collab ⟨[demo_entry 1 1, demo_entry 2 2]⟩ 1
      hkeys hseen).2 ⟨demo_entry 1 1, rfl, by decide⟩ f demo_flush_tree
      (demo_leaf 5 1 [demo_entry 1 1])⟩

/-! ## The lock type at the apply step of `root_put_cmd` -/

/-- A root that the cache pins and that is classified STABLE ends the retry loop
of `root_put_cmd` at once, with the lock type the loop was entered with. -/
lemma root_put_loop_stable (X : collab msg) (n f : Nat) (t : tree msg) (root : node msg)
    (locktype : lock_type)
    (hpin : t.cf.nodes t.hdr.root_nid = some root) (hok : X.NESS_OK ≠ 0)
    (hstable : _get_reactivity X t root = reactivity.STABLE) :
    root_put_loop X n (f + 1) t locktype = .ok (t, root_loop_out.apply root locktype) := by
  have hp : cache_get_and_pin X t t.hdr.root_nid locktype = (X.NESS_OK, some root) := by
    simp [cache_get_and_pin, hpin]
  rw [root_put_loop, hp]
  simp only [hok, if_false, hstable]

/-- C16 (the code against the claim). The claim has a root of height 0 held with
`L_WRITE` when `root_put_cmd` reaches its final apply step. `root_put_cmd` starts
with `locktype = L_READ` and changes it only on the FISSIBLE and FLUSHBLE
branches: whenever the cache pins the root and the root is a leaf classified
STABLE, the loop ends in its first round with the root held with `L_READ`, and
`root_put_cmd` applies the command to the leaf (`leaf_put_cmd`, which requires
`L_WRITE`) and returns `NESS_OK`. -/
theorem root_put_cmd_applies_leaf_root_under_read (X : collab msg) (n f : Nat) (t : tree msg)
    (root : node msg) (cmd : bt_cmd msg)
    (hpin : t.cf.nodes t.hdr.root_nid = some root) (hok : X.NESS_OK ≠ 0)
    (hleaf : root.height = 0)
    (hstable : _get_reactivity X t root = reactivity.STABLE) :
    root_put_loop X n (f + 1) t lock_type.L_READ =
      .ok (t, root_loop_out.apply root lock_type.L_READ) ∧
    lock_type.L_READ ≠ lock_type.L_WRITE ∧
    root_put_cmd X n (f + 1) t cmd =
      .ok (cache_unpin
            { t with status := { t.status with
                tree_leaf_put_nums := t.status.tree_leaf_put_nums + 1 } }
            (leaf_put_cmd X root cmd), X.NESS_OK) := by
  have hloop := root_put_loop_stable X n f t root lock_type.L_READ hpin hok hstable
  refine ⟨hloop, by decide, ?_⟩
  unfold root_put_cmd
  rw [hloop]
  simp only [_node_put_cmd, hleaf, if_true]

/-- Witness for C16: the first put on a newly created tree. The root is the
empty leaf under NID 4, classified STABLE; the loop ends with the root held with
`L_READ` and the command is applied to the leaf. -/
theorem root_put_cmd_applies_leaf_root_under_read_witness :
    (demo_fresh_tree (demo_opts 100 4)).cf.nodes (demo_fresh_tree (demo_opts 100 4)).hdr.root_nid =
      some { demo_leaf 4 0 [] with isroot := 1, dirty := 1 } ∧
    ({ demo_leaf 4 0 [] with isroot := 1, dirty := 1 } : node Nat).height = 0 ∧
    _get_reactivity demo_collab (demo_fresh_tree (demo_opts 100 4))
      { demo_leaf 4 0 [] with isroot := 1, dirty := 1 } = reactivity.STABLE ∧
    root_put_loop demo_collab 10 10 (demo_fresh_tree (demo_opts 100 4)) lock_type.L_READ =
      .ok (demo_fresh_tree (demo_opts 100 4),
           root_loop_out.apply { demo_leaf 4 0 [] with isroot := 1, dirty := 1 }
             lock_type.L_READ) :=
  have hpin : (demo_fresh_tree (demo_opts 100 4)).cf.nodes
      (demo_fresh_tree (demo_opts 100 4)).hdr.root_nid =
      some { demo_leaf 4 0 [] with isroot := 1, dirty := 1 } := rfl
  have hstable : _get_reactivity demo_collab (demo_fresh_tree (demo_opts 100 4))
      { demo_leaf 4 0 [] with isroot := 1, dirty := 1 } = reactivity.STABLE := by decide
  ⟨hpin, rfl, hstable,
    (root_put_cmd_applies_leaf_root_under_read demo_collab 10 9
      (demo_fresh_tree (demo_opts 100 4)) { demo_leaf 4 0 [] with isroot := 1, dirty := 1 }
      (tree_put_cmd (demo_fresh_tree (demo_opts 100 4)) 1 0 msgtype_t.MSG_INSERT none).2
      hpin (by decide) rfl hstable).1⟩

/-! ## A failed child pin during a flush of the root -/

/-- The classification of a node reads the options of the tree only. -/
lemma get_reactivity_congr (X : collab msg) (t t1 : tree msg) (nd : node msg)
    (h : t1.opts = t.opts) : _get_reactivity X t1 nd = _get_reactivity X t nd := by
  unfold _get_reactivity
  rw [h]

/-- `_flush_some_child` on a parent whose heaviest child the cache cannot pin:
it returns `NESS_ERR` and the tree is the one it was given. -/
lemma flush_some_child_pin_fails (X : collab msg) (n f : Nat) (t : tree msg) (parent : node msg)
    (herr : X.NESS_ERR ≠ X.NESS_OK)
    (hidx : X.node_find_heaviest_idx parent < parent.n_children)
    (hchild : t.cf.nodes (parent.parts (X.node_find_heaviest_idx parent)).child_nid = none) :
    _flush_some_child X n (f + 1) t parent = .ok (t, X.NESS_ERR) := by
  unfold _flush_some_child
  simp only [hidx, if_true, cache_get_and_pin, hchild, ne_eq, herr, not_false_eq_true]

/-- An unpin at which the cache does not evict stores the node image. -/
lemma cache_unpin_nodes (t : tree msg) (nd : node msg) (h : ∀ b ∈ t.cf.evict, b = false) :
    (cache_unpin t nd).cf.nodes = Function.update t.cf.nodes nd.nid (some nd) ∧
    (∀ b ∈ (cache_unpin t nd).cf.evict, b = false) := by
  constructor
  · have hne : ¬ t.cf.evict.head? = some true := by
      intro hh
      have := h true (List.mem_of_mem_head? hh)
      cases this
    simp only [cache_unpin, if_neg hne]
  · intro b hb
    exact h b (List.mem_of_mem_tail hb)

/-- The retry loop of `root_put_cmd` on a FLUSHBLE root whose heaviest child the
cache cannot pin, while the cache does not evict the root: the failure of
`_flush_some_child` is dropped and the loop starts over on an unchanged root, so
it returns for no amount of fuel. -/
lemma root_put_loop_flush_pin_fails (X : collab msg) (n : Nat) (root : node msg) (rnid : Nat)
    (hok : X.NESS_OK ≠ 0) (herr : X.NESS_ERR ≠ X.NESS_OK)
    (hidx : X.node_find_heaviest_idx root < root.n_children)
    (hrn : root.nid = rnid) :
    ∀ (f : Nat) (t : tree msg) (locktype : lock_type),
      t.hdr.root_nid = rnid → t.cf.nodes rnid = some root →
      t.cf.nodes (root.parts (X.node_find_heaviest_idx root)).child_nid = none →
      _get_reactivity X t root = reactivity.FLUSHBLE →
      (∀ b ∈ t.cf.evict, b = false) →
      root_put_loop X n f t locktype = .error fault.nofuel := by
  intro f
  induction f with
  | zero =>
    intro t locktype _ _ _ _ _
    rfl
  | succ f ih =>
    intro t locktype h1 h2 h3 h4 h5
    have hun := cache_unpin_nodes t root h5
    have hp : cache_get_and_pin X t t.hdr.root_nid locktype = (X.NESS_OK, some root) := by
      simp [cache_get_and_pin, h1, h2]
    have hne : (root.parts (X.node_find_heaviest_idx root)).child_nid ≠ root.nid := by
      intro heq
      rw [heq, hrn, h2] at h3
      cases h3
    rw [root_put_loop, hp]
    simp only [hok, if_false, h4]
    cases locktype with
    | L_READ =>
      simp only [if_true]
      apply ih (cache_unpin t root) lock_type.L_WRITE h1
      · rw [hun.1, ← hrn, Function.update_same]
      · rw [hun.1, Function.update_noteq hne]
        exact h3
      · exact (get_reactivity_congr X t _ root rfl).trans h4
      · exact hun.2
    | L_WRITE =>
      have hlt : ¬ (lock_type.L_WRITE = lock_type.L_READ) := by decide
      simp only [hlt, if_false]
      cases n with
      | zero => rfl
      | succ m =>
        rw [flush_some_child_pin_fails X (m + 1) m t root herr hidx h3]
        exact ih _ lock_type.L_READ h1 h2 h3 ((get_reactivity_congr X t _ root rfl).trans h4) h5

/-- C13 (the code against the claim). On a FLUSHBLE root whose heaviest child the
cache cannot pin, `_flush_some_child` returns `NESS_ERR` and leaves the tree as it
was: no node is mutated, the partition buffer is neither drained nor replaced.
This part of the claim holds. `root_put_cmd` drops that return value and jumps
back to `CHANGE_LOCK_TYPE`: the root is unchanged, so it is FLUSHBLE again and
the flush fails again. As long as the cache does not evict the root itself (no
eviction decision is `true`), `root_put_cmd` and `tree_put` return for no amount
of fuel; in particular they never return `NESS_ERR`. -/
theorem flush_pin_failure_is_dropped (X : collab msg) (t : tree msg) (root : node msg)
    (hok : X.NESS_OK ≠ 0) (herr : X.NESS_ERR ≠ X.NESS_OK)
    (hpin : t.cf.nodes t.hdr.root_nid = some root) (hrn : root.nid = t.hdr.root_nid)
    (hflush : _get_reactivity X t root = reactivity.FLUSHBLE)
    (hidx : X.node_find_heaviest_idx root < root.n_children)
    (hchild : t.cf.nodes (root.parts (X.node_find_heaviest_idx root)).child_nid = none)
    (hkeep : ∀ b ∈ t.cf.evict, b = false) :
    (∀ n f : Nat, _flush_some_child X n (f + 1) t root = .ok (t, X.NESS_ERR)) ∧
    (∀ (n f : Nat) (cmd : bt_cmd msg), root_put_cmd X n f t cmd = .error fault.nofuel) ∧
    (∀ (n f : Nat) (k v : msg) (type : msgtype_t) (txn : Option TXN),
      tree_put X n f t k v type txn = .error fault.nofuel) := by
  refine ⟨fun n f => flush_some_child_pin_fails X n f t root herr hidx hchild, ?_, ?_⟩
  · intro n f cmd
    unfold root_put_cmd
    rw [root_put_loop_flush_pin_fails X n root t.hdr.root_nid hok herr hidx hrn f t
      lock_type.L_READ rfl hpin hchild hflush hkeep]
  · intro n f k v type txn
    have hl := root_put_loop_flush_pin_fails X n root t.hdr.root_nid hok herr hidx hrn f
      (tree_put_cmd t k v type txn).1 lock_type.L_READ rfl hpin hchild
      ((get_reactivity_congr X t _ root rfl).trans hflush) hkeep
    show root_put_cmd X n f (tree_put_cmd t k v type txn).1 (tree_put_cmd t k v type txn).2 = _
    unfold root_put_cmd
    rw [hl]

/-- Witness for C13: the root with the children 5 and 6 buffers two entries for
child 5, is FLUSHBLE at `inner_node_page_count = 2`, and the cache cannot fetch
child 5. -/
theorem flush_pin_failure_is_dropped_witness :
    _get_reactivity demo_collab demo_tree_nochild demo_flush_parent = reactivity.FLUSHBLE ∧
    demo_tree_nochild.cf.nodes
      (demo_flush_parent.parts (demo_collab.node_find_heaviest_idx demo_flush_parent)).child_nid =
      none ∧
    (∀ n f : Nat, _flush_some_child demo_collab n (f + 1) demo_tree_nochild demo_flush_parent =
      .ok (demo_tree_nochild, 0)) ∧
    (∀ n f : Nat, tree_put demo_collab n f demo_tree_nochild 1 0 msgtype_t.MSG_INSERT none =
      .error fault.nofuel) :=
  have hflush : _get_reactivity demo_collab demo_tree_nochild demo_flush_parent =
      reactivity.FLUSHBLE := by decide
  have hchild : demo_tree_nochild.cf.nodes
      (demo_flush_parent.parts (demo_collab.node_find_heaviest_idx demo_flush_parent)).child_nid =
      none := rfl
  have h := flush_pin_failure_is_dropped demo_collab demo_tree_nochild demo_flush_parent
    (by decide) (by decide) rfl rfl hflush (by decide) hchild (by decide)
  ⟨hflush, hchild, h.1, fun n f => h.2.2 n f 1 0 msgtype_t.MSG_INSERT none⟩

/-! ## The order of the pivots after a child split -/

/-- The pivots of the parent after `_add_pivot_to_parent`: the split key at
`child_num`, the old pivots from `child_num` on one slot further. -/
lemma add_pivot_pivots (t : tree msg) (parent : node msg) (c : Nat) (a b : node msg) (k : msg)
    (j : Nat) :
    (_add_pivot_to_parent t parent c a b k).2.pivots j =
      if j = c then k
      else if c < j ∧ j ≤ parent.n_children - 1 then parent.pivots (j - 1)
      else parent.pivots j := by
  simp only [_add_pivot_to_parent, node_set_dirty]
  by_cases hj : j = c
  · subst hj
    rw [Function.update_same, if_pos rfl]
  · rw [Function.update_noteq hj, if_neg hj, slide_apply]

/-- Inserting a split key into strictly increasing pivots at an index within the
pivot array keeps them strictly increasing exactly when the key lies strictly
between the pivots next to it. -/
lemma add_pivot_sorted_iff (t : tree msg) (parent : node msg) (c : Nat) (a b : node msg)
    (k : msg) (hsorted : pivots_sorted parent) (hc : c < parent.n_children) :
    pivots_sorted (_add_pivot_to_parent t parent c a b k).2 ↔
      (∀ i, i + 1 = c → parent.pivots i < k) ∧
      (c < parent.n_children - 1 → k < parent.pivots c) := by
  have hn : (_add_pivot_to_parent t parent c a b k).2.n_children - 1 = parent.n_children := rfl
  constructor
  · intro hs
    constructor
    · intro i hi
      have h := hs c (by rw [hn]; exact hc) i (by omega)
      rw [add_pivot_pivots, add_pivot_pivots, if_neg (by omega), if_neg (by omega),
        if_pos rfl] at h
      exact h
    · intro hlt
      have h := hs (c + 1) (by rw [hn]; omega) c (by omega)
      rw [add_pivot_pivots, add_pivot_pivots, if_pos rfl, if_neg (by omega),
        if_pos (by omega)] at h
      simpa using h
  · rintro ⟨hlo, hhi⟩
    have hlo2 : ∀ i, i < c → parent.pivots i < k := by
      intro i hi
      by_cases h1 : i + 1 = c
      · exact hlo i h1
      · exact lt_trans (hsorted (c - 1) (by omega) i (by omega)) (hlo (c - 1) (by omega))
    have hhi2 : ∀ i, c ≤ i → i < parent.n_children - 1 → k < parent.pivots i := by
      intro i h1 h2
      by_cases h3 : i = c
      · subst h3
        exact hhi h2
      · exact lt_trans (hhi (by omega)) (hsorted i h2 c (by omega))
    intro j hj i hij
    rw [hn] at hj
    rw [add_pivot_pivots t parent c a b k i, add_pivot_pivots t parent c a b k j]
    by_cases hjc : j = c
    · have hic : ¬ i = c := by omega
      have hig : ¬ (c < i ∧ i ≤ parent.n_children - 1) := by omega
      rw [if_pos hjc, if_neg hic, if_neg hig]
      exact hlo2 i (by omega)
    · by_cases hjg : c < j
      · have hjg2 : c < j ∧ j ≤ parent.n_children - 1 := by omega
        rw [if_neg hjc, if_pos hjg2]
        by_cases hic : i = c
        · rw [if_pos hic]
          exact hhi2 (j - 1) (by omega) (by omega)
        · by_cases hig : c < i
          · have hig2 : c < i ∧ i ≤ parent.n_children - 1 := by omega
            rw [if_neg hic, if_pos hig2]
            exact hsorted (j - 1) (by omega) (i - 1) (by omega)
          · have hig2 : ¬ (c < i ∧ i ≤ parent.n_children - 1) := by omega
            rw [if_neg hic, if_neg hig2]
            exact hsorted (j - 1) (by omega) i (by omega)
      · have hjg2 : ¬ (c < j ∧ j ≤ parent.n_children - 1) := by omega
        have hic : ¬ i = c := by omega
        have hig2 : ¬ (c < i ∧ i ≤ parent.n_children - 1) := by omega
        rw [if_neg hjc, if_neg hjg2, if_neg hic, if_neg hig2]
        exact hsorted j (by omega) i hij

/-- C17 (amended). Let the split of the child yield the split key `k` and let
`child_num = node_partition_idx(parent, k)` be an index of the parent
(`child_num < n_children`). For every parent whose pivots are strictly
increasing, `_node_split_child` returns, the parent has one child more and
`pivots[child_num] = k`, and the pivots of the parent are strictly increasing
afterwards if and only if `k` is strictly greater than `pivots[child_num - 1]`
(when `child_num > 0`) and strictly less than the old `pivots[child_num]` (when
`child_num < n_children - 1`). `_node_split_child` does not test this: a split
key equal to a pivot of the parent leaves a duplicate pivot. -/
theorem node_split_child_pivots_sorted_iff (X : collab msg) (t t0 : tree msg)
    (parent child a b : node msg) (k : msg)
    (hsplit : (if child.height = 0 then _leaf_split X t child
               else _nonleaf_split X t child) = .ok (t0, a, b, some k))
    (hsorted : pivots_sorted parent)
    (hnum : X.node_partition_idx parent k < parent.n_children) :
    ∃ (t1 : tree msg) (parent1 a1 : node msg),
      _node_split_child X t parent child = .ok (t1, parent1, a1) ∧
      parent1.n_children = parent.n_children + 1 ∧
      parent1.pivots (X.node_partition_idx parent k) = k ∧
      (pivots_sorted parent1 ↔
        (∀ i, i + 1 = X.node_partition_idx parent k → parent.pivots i < k) ∧
        (X.node_partition_idx parent k < parent.n_children - 1 →
          k < parent.pivots (X.node_partition_idx parent k))) ∧
      ((∃ i, i < parent.n_children - 1 ∧ parent.pivots i = k) → ¬ pivots_sorted parent1) := by
  have hiff := add_pivot_sorted_iff t0 parent (X.node_partition_idx parent k) a b k hsorted hnum
  unfold _node_split_child
  rw [hsplit]
  refine ⟨_, _, _, rfl, rfl, ?_, hiff, ?_⟩
  · show (_add_pivot_to_parent t0 parent (X.node_partition_idx parent k) a b k).2.pivots
      (X.node_partition_idx parent k) = k
    rw [add_pivot_pivots, if_pos rfl]
  · rintro ⟨i, hi, heq⟩ hs
    obtain ⟨hlo, hhi⟩ := hiff.1 hs
    by_cases h1 : i < X.node_partition_idx parent k
    · by_cases h2 : i + 1 = X.node_partition_idx parent k
      · have := hlo i h2
        rw [heq] at this
        exact lt_irrefl _ this
      · have h3 := hsorted (X.node_partition_idx parent k - 1) (by omega) i (by omega)
        have h4 := hlo (X.node_partition_idx parent k - 1) (by omega)
        rw [heq] at h3
        exact lt_irrefl _ (lt_trans h3 h4)
    · have h3 := hhi (by omega)
      by_cases h2 : i = X.node_partition_idx parent k
      · rw [← h2, heq] at h3
        exact lt_irrefl _ h3
      · have h4 := hsorted i hi (X.node_partition_idx parent k) (by omega)
        rw [heq] at h4
        exact lt_irrefl _ (lt_trans h3 h4)

/-- Counterexample to C17 as stated: the parent has the single pivot 10 (strictly
increasing); its child 6 buffers the keys 10, 10, 12, so the leaf split yields
the split key 10 and `child_num = 1`; afterwards the parent has the pivots 10,
10, which are not strictly increasing. -/
theorem node_split_child_duplicate_pivot :
    ∃ (t1 : tree Nat) (parent1 a1 : node Nat),
      _node_split_child demo_collab demo_tree_dup demo_parent10 demo_leaf_dup =
        .ok (t1, parent1, a1) ∧
      pivots_sorted demo_parent10 ∧
      parent1.n_children = 3 ∧ parent1.pivots 0 = 10 ∧ parent1.pivots 1 = 10 ∧
      ¬ pivots_sorted parent1 :=
  ⟨_, _, _, rfl, by decide, rfl, rfl, rfl, by decide⟩

/-- Witness for C17 (amended): the child 6 of the parent with the pivots 10, 20,
30 is a leaf with the keys 12, 14, 16; the split key 14 goes to index 1, between
10 and 20, and the pivots 10, 14, 20, 30 are strictly increasing. -/
theorem node_split_child_pivots_sorted_iff_witness :
    pivots_sorted demo_inner4 ∧
    ∃ (t1 : tree Nat) (parent1 a1 : node Nat),
      _node_split_child demo_collab demo_tree4 demo_inner4
        (demo_leaf 6 3 [demo_entry 1 12, demo_entry 2 14, demo_entry 3 16]) =
        .ok (t1, parent1, a1) ∧
      parent1.n_children = 5 ∧ parent1.pivots 1 = 14 ∧ pivots_sorted parent1 := by
  have hs : pivots_sorted demo_inner4 := by decide
  refine ⟨hs, ?_⟩
  have key := fun (t0 : tree Nat) (a b : node Nat)
      (h : (if (demo_leaf 6 3 [demo_entry 1 12, demo_entry 2 14, demo_entry 3 16]).height = 0
            then _leaf_split demo_collab demo_tree4
              (demo_leaf 6 3 [demo_entry 1 12, demo_entry 2 14, demo_entry 3 16])
            else _nonleaf_split demo_collab demo_tree4
              (demo_leaf 6 3 [demo_entry 1 12, demo_entry 2 14, demo_entry 3 16])) =
        .ok (t0, a, b, some 14)) =>
    node_split_child_pivots_sorted_iff demo_collab demo_tree4 t0 demo_inner4
      (demo_leaf 6 3 [demo_entry 1 12, demo_entry 2 14, demo_entry 3 16]) a b 14 h hs
      (by decide)
  obtain ⟨t1, parent1, a1, h1, h2, h3, h4, _⟩ := key _ _ _ rfl
  have hidx : demo_collab.node_partition_idx demo_inner4 14 = 1 := by decide
  refine ⟨t1, parent1, a1, h1, h2, h3, h4.2 ⟨?_, by decide⟩⟩
  intro i hi
  have hi0 : i = 0 := by omega
  subst hi0
  decide

/-! ## A put that returns an error -/

/-- Every early return of the retry loop of `root_put_cmd` is the
`return NESS_ERR` after a pin of the root came back with status 0 (tree.c
509-511): the loop hands back the tree as it stands at that pin. -/
lemma root_put_loop_ret (X : collab msg) (n f : Nat) :
    ∀ (t t1 : tree msg) (locktype : lock_type) (code : Int),
      root_put_loop X n f t locktype = .ok (t1, root_loop_out.ret code) →
      code = X.NESS_ERR ∧ ∃ lt, (cache_get_and_pin X t1 t1.hdr.root_nid lt).1 = 0 := by
  induction f with
  | zero =>
    intro t t1 locktype code h
    simp [root_put_loop] at h
  | succ f ih =>
    intro t t1 locktype code h
    unfold root_put_loop at h
    split at h
    rename_i st r hpin
    split at h
    · rename_i hst
      cases h
      exact ⟨rfl, locktype, by rw [hpin]; exact hst⟩
    · split at h
      · cases h
      · rename_i root
        split at h
        · cases h
        · split at h
          · exact ih _ _ _ _ h
          · split at h
            · cases h
            · exact ih _ _ _ _ h
        · split at h
          · exact ih _ _ _ _ h
          · split at h
            · cases h
            · exact ih _ _ _ _ h

/-- When the pin of the root comes back with status 0, the retry loop returns
`NESS_ERR` at once and hands back the tree it was given. -/
lemma root_put_loop_pin_fails (X : collab msg) (n f : Nat) (t : tree msg) (locktype : lock_type)
    (h : (cache_get_and_pin X t t.hdr.root_nid locktype).1 = 0) :
    root_put_loop X n (f + 1) t locktype = .ok (t, root_loop_out.ret X.NESS_ERR) := by
  rw [root_put_loop]
  cases hp : cache_get_and_pin X t t.hdr.root_nid locktype with
  | mk st r =>
    rw [hp] at h
    have hst : st = 0 := h
    simp only [hst, if_true]

/-- C14 (amended). `tree_put` takes the MSN of the command from `hdr_next_msn`
before it calls `root_put_cmd`, and `root_put_cmd` returns `NESS_ERR` exactly
where a pin of the root comes back with status 0 (tree.c 509-511), handing back
the tree as it stands at that pin. So for every `tree_put` call that returns an
error, `last_msn` has been advanced to `(last_msn + 1) mod 2^64` (the MSN of the
failed command is used up) and the root cannot be pinned in the tree the call
leaves behind. When it is the first pin that fails, the call returns `NESS_ERR`
and `root_nid`, `height`, `last_nid`, the cache with every node, the options
and the status counters are the same as before the call. When it is a later
pin, after a root split or a flush, what the split or flush did stays in
place. -/
theorem tree_put_error_consumes_msn (X : collab msg) (n fuel : Nat) (t t1 : tree msg)
    (k v : msg) (type : msgtype_t) (txn : Option TXN) (code : Int)
    (hret : tree_put X n fuel t k v type txn = .ok (t1, code)) (herr : code ≠ X.NESS_OK) :
    code = X.NESS_ERR ∧
    (∃ lt, (cache_get_and_pin X t1 t1.hdr.root_nid lt).1 = 0) ∧
    t1.hdr.last_msn = (t.hdr.last_msn + 1) % UINT64_MOD ∧
    (t.hdr.last_msn < UINT64_MOD → t1.hdr.last_msn ≠ t.hdr.last_msn) ∧
    ((cache_get_and_pin X t t.hdr.root_nid lock_type.L_READ).1 = 0 →
      t1.hdr.root_nid = t.hdr.root_nid ∧ t1.hdr.height = t.hdr.height ∧
      t1.hdr.last_nid = t.hdr.last_nid ∧ t1.cf = t.cf ∧ t1.opts = t.opts ∧
      t1.status = t.status) ∧
    ((cache_get_and_pin X t t.hdr.root_nid lock_type.L_READ).1 = 0 →
      ∀ f : Nat, ∃ t2 : tree msg,
        tree_put X n (f + 1) t k v type txn = .ok (t2, X.NESS_ERR) ∧ t2.cf = t.cf ∧
        t2.hdr.last_msn = (t.hdr.last_msn + 1) % UINT64_MOD) := by
  have hput : root_put_cmd X n fuel (tree_put_cmd t k v type txn).1
      (tree_put_cmd t k v type txn).2 = .ok (t1, code) := hret
  have hmsn : t1.hdr.last_msn = (t.hdr.last_msn + 1) % UINT64_MOD :=
    root_put_cmd_last_msn X n fuel _ t1 _ code hput
  have hfirst : ∀ f : Nat, (cache_get_and_pin X t t.hdr.root_nid lock_type.L_READ).1 = 0 →
      root_put_cmd X n (f + 1) (tree_put_cmd t k v type txn).1
        (tree_put_cmd t k v type txn).2 =
        .ok ((tree_put_cmd t k v type txn).1, X.NESS_ERR) := by
    intro f h0
    have hl := root_put_loop_pin_fails X n f (tree_put_cmd t k v type txn).1 lock_type.L_READ h0
    unfold root_put_cmd
    rw [hl]
  have hloop : code = X.NESS_ERR ∧
      ∃ lt, (cache_get_and_pin X t1 t1.hdr.root_nid lt).1 = 0 := by
    unfold root_put_cmd at hput
    split at hput
    · cases hput
    · rename_i t2 c hl
      cases hput
      exact root_put_loop_ret X n fuel _ _ _ _ hl
    · split at hput
      · cases hput
      · cases hput
        exact absurd rfl herr
  refine ⟨hloop.1, hloop.2, hmsn, ?_, ?_, ?_⟩
  · intro hlt
    rw [hmsn]
    unfold UINT64_MOD at hlt ⊢
    omega
  · intro h0
    cases fuel with
    | zero =>
      unfold root_put_cmd at hput
      simp [root_put_loop] at hput
    | succ f =>
      rw [hfirst f h0] at hput
      cases hput
      exact ⟨rfl, rfl, rfl, rfl, rfl, rfl⟩
  · intro h0 f
    exact ⟨_, hfirst f h0, rfl, rfl⟩

/-- Counterexample to C14 as stated. On a tree whose root the cache cannot pin,
`tree_put` returns `NESS_ERR` and `last_msn` is 8 after the call, 7 before it. On
a tree with a FISSIBLE leaf root that the cache evicts at its unpin after the
root split, `tree_put` returns `NESS_ERR` from the pin that follows the split:
`height` went from 0 to 1, `last_nid` from 4 to 6, `last_msn` from 3 to 4, the
NIDs 5 and 6 hold new nodes and the split counters are raised. -/
theorem tree_put_error_changes_state :
    (∃ t1 : tree Nat,
      tree_put demo_collab 10 10 demo_tree_noroot 1 0 msgtype_t.MSG_INSERT none =
        .ok (t1, demo_collab.NESS_ERR) ∧
      demo_tree_noroot.hdr.last_msn = 7 ∧ t1.hdr.last_msn = 8) ∧
    (∃ t1 : tree Nat,
      tree_put demo_collab 10 10 demo_tree_evict 4 0 msgtype_t.MSG_INSERT none =
        .ok (t1, demo_collab.NESS_ERR) ∧
      demo_tree_evict.hdr =
        { root_nid := 4, height := 0, last_nid := 4, last_msn := 3, method := 0 } ∧
      t1.hdr = { root_nid := 4, height := 1, last_nid := 6, last_msn := 4, method := 0 } ∧
      (demo_tree_evict.cf.nodes 5).isNone = true ∧ (demo_tree_evict.cf.nodes 6).isNone = true ∧
      (t1.cf.nodes 5).isSome = true ∧ (t1.cf.nodes 6).isSome = true ∧
      (t1.cf.nodes 4).isNone = true ∧
      demo_tree_evict.status.tree_leaf_split_nums = 0 ∧ t1.status.tree_leaf_split_nums = 1 ∧
      t1.status.tree_root_new_nums = 1) :=
  ⟨⟨_, rfl, rfl, rfl⟩, ⟨_, rfl, rfl, rfl, rfl, rfl, rfl, rfl, rfl, rfl, rfl, rfl⟩⟩

/-- Witness for C14 (amended): the put that fails at the first pin of the root
and the put that fails at the pin after the root split. -/
theorem tree_put_error_consumes_msn_witness :
    (∃ t1 : tree Nat,
      tree_put demo_collab 10 10 demo_tree_noroot 1 0 msgtype_t.MSG_INSERT none =
        .ok (t1, demo_collab.NESS_ERR) ∧
      t1.hdr.last_msn = 8 ∧ t1.hdr.root_nid = 4 ∧ t1.hdr.height = 0 ∧ t1.hdr.last_nid = 4 ∧
      t1.cf = demo_tree_noroot.cf ∧ t1.status = demo_tree_noroot.status) ∧
    (∃ t1 : tree Nat,
      tree_put demo_collab 10 10 demo_tree_evict 4 0 msgtype_t.MSG_INSERT none =
        .ok (t1, demo_collab.NESS_ERR) ∧
      t1.hdr.last_msn = 4 ∧
      ∃ lt, (cache_get_and_pin demo_collab t1 t1.hdr.root_nid lt).1 = 0) := by
  have key := fun (t : tree Nat) (k : Nat) (t1 : tree Nat)
      (h : tree_put demo_collab 10 10 t k 0 msgtype_t.MSG_INSERT none =
        .ok (t1, demo_collab.NESS_ERR)) =>
    tree_put_error_consumes_msn demo_collab 10 10 t t1 k 0 msgtype_t.MSG_INSERT none
      demo_collab.NESS_ERR h (by decide)
  constructor
  · refine ⟨_, rfl, ?_⟩
    have h := key demo_tree_noroot 1 _ rfl
    obtain ⟨h1, h2, h3, h4, h5, h6⟩ := h.2.2.2.2.1 rfl
    exact ⟨h.2.2.1, h1, h2, h3, h4, h6⟩
  · refine ⟨_, rfl, ?_⟩
    have h := key demo_tree_evict 4 _ rfl
    exact ⟨h.2.2.1, h.2.1⟩

/-! ## The state after a flush whose child stays stable -/

end Proofs

end NessDB
